import Mathlib

/-!
Verification development for the b-sdk smart-order-router core.

We give a shallow embedding of the data model and the operations of the
repository (token/pool entities, `PathWithAmount` pricing, the `Swap`
aggregate, `SmartOrderRouter.getSwaps`, and the `PathGraph` builder and
traversal), translated from the TypeScript source, and prove or refute the
specification claims about them.

Modelling conventions:
* addresses and pool ids are `Nat` (the source uses hex strings; only
  identity matters to the routed logic, and string keys such as
  `poolId-tokenIn-tokenOut` are modelled as structured tuples, which is the
  same data up to an injective encoding);
* TypeScript object identity (`===`) on tokens is modelled as value
  equality, the way the entities are used by the router;
* exceptions are modelled with `Except String`;
* the pool capability contract (quoting and liquidity-metric functions,
  consumed but not implemented by this repository) appears as function
  fields of `BasePool`.
-/

set_option linter.unusedVariables false

namespace BSdk

abbrev Addr := Nat

/-- Chain-scoped token identity (`Token` entity): address plus the flags the
router reads (`isNative`, `wrapped`). -/
structure Token where
  address : Addr
  isNative : Bool
  wrapped : Addr
deriving DecidableEq, Repr

/-- A plain (non-native) token at an address. -/
def mkToken (a : Addr) : Token :=
  { address := a, isNative := false, wrapped := a }

/-- `TokenAmount`: a token together with its raw integer amount. -/
structure TokenAmount where
  token : Token
  amount : Int
deriving DecidableEq, Repr

/-- `SwapKind` from `types.ts`. -/
inductive SwapKind where
  | GivenIn
  | GivenOut
deriving DecidableEq, Repr

/-- `PoolType` from `types.ts`. -/
inductive PoolType where
  | Weighted
  | ComposableStable
  | MetaStable
  | AaveLinear
  | Fx
  | Gyro2
  | Gyro3
  | GyroE
deriving DecidableEq, Repr

/-- A pool's token slot (the source reads `pool.tokens[i].token`). -/
structure PoolToken where
  token : Token
deriving DecidableEq, Repr

/-- `BasePool`: identity, type and member tokens, plus the capability
contract consumed by the router (spec &sect;6): a liquidity metric for an
ordered token pair and the two quoting functions. The quoting and metric
functions are opaque parameters of the model, exactly as the router treats
pools polymorphically and never inspects pricing formulas. -/
structure BasePool where
  id : Nat
  address : Addr
  poolType : PoolType
  tokens : List PoolToken
  getNormalizedLiquidity : Token → Token → Int
  swapGivenIn : Token → Token → TokenAmount → TokenAmount
  swapGivenOut : Token → Token → TokenAmount → TokenAmount

/-- `Path` entity: ordered token sequence and the pools connecting
consecutive tokens. -/
structure Path where
  tokens : List Token
  pools : List BasePool

/-- `PathWithAmount` entity: a path plus the fixed directional amount and
the inferred swap kind. -/
structure PathWithAmount where
  tokens : List Token
  pools : List BasePool
  swapAmount : TokenAmount
  swapKind : SwapKind

/-- The `PathWithAmount` constructor: the kind is `GivenIn` exactly when
`tokens[0] === swapAmount.token`, else `GivenOut` (src/entities/path.ts,
constructor). `tokens[0]` on an empty list is `undefined` in the source and
compares unequal to any token; we model it with `head?`. -/
def mkPathWithAmount (tokens : List Token) (pools : List BasePool)
    (swapAmount : TokenAmount) : PathWithAmount :=
  { tokens := tokens
    pools := pools
    swapAmount := swapAmount
    swapKind :=
      if tokens.head? = some swapAmount.token then SwapKind.GivenIn
      else SwapKind.GivenOut }

/-- The `GivenIn` pricing loop of `PathWithAmount.outputAmount`: walk the
pools, feeding each hop's output into the next pool, advancing through the
token sequence (src/entities/path.ts lines 33-45, the `amounts` array
loop). -/
def swapGivenInLoop : List BasePool → List Token → TokenAmount → TokenAmount
  | [], _, acc => acc
  | pool :: rest, t1 :: t2 :: ts, acc =>
      swapGivenInLoop rest (t2 :: ts) (pool.swapGivenIn t1 t2 acc)
  | _ :: _, _, acc => acc

/-- `PathWithAmount.outputAmount` (src/entities/path.ts lines 31-49): for
`GivenIn` run the sequential quoting loop; for `GivenOut` the source
returns `this.swapAmount` unchanged. -/
def PathWithAmount.outputAmount (p : PathWithAmount) : TokenAmount :=
  match p.swapKind with
  | SwapKind.GivenIn => swapGivenInLoop p.pools p.tokens p.swapAmount
  | SwapKind.GivenOut => p.swapAmount

/-- The hop triples (pool, tokenIn, tokenOut) of a path, in token order. -/
def pathHops (pools : List BasePool) (tokens : List Token) :
    List (BasePool × Token × Token) :=
  pools.zip (tokens.zip tokens.tail)

/-- Spec-side sequential pricing in token order (spec &sect;4.3, the claim's
wording for `GivenIn`): fold the fixed input through each hop's
`quoteGivenIn`. -/
def specSequentialGivenIn (p : PathWithAmount) : TokenAmount :=
  (pathHops p.pools p.tokens).foldl
    (fun acc hop => hop.1.swapGivenIn hop.2.1 hop.2.2 acc) p.swapAmount

/-- Spec-side counterpart pricing for `GivenOut` (the claim's wording):
apply the pools' `quoteGivenOut` functions in reverse token order, folding
the fixed output backwards to the implied input. -/
def specSequentialGivenOut (p : PathWithAmount) : TokenAmount :=
  (pathHops p.pools p.tokens).reverse.foldl
    (fun acc hop => hop.1.swapGivenOut hop.2.1 hop.2.2 acc) p.swapAmount

theorem swapGivenInLoop_eq_foldl (pools : List BasePool) :
    ∀ (tokens : List Token) (acc : TokenAmount),
      swapGivenInLoop pools tokens acc =
        (pathHops pools tokens).foldl
          (fun acc hop => hop.1.swapGivenIn hop.2.1 hop.2.2 acc) acc := by
  induction pools with
  | nil => intro tokens acc; simp [swapGivenInLoop, pathHops]
  | cons pool rest ih =>
    intro tokens acc
    match tokens with
    | [] => simp [swapGivenInLoop, pathHops]
    | [t1] => simp [swapGivenInLoop, pathHops]
    | t1 :: t2 :: ts =>
      simp only [swapGivenInLoop, pathHops, List.tail_cons, List.zip_cons_cons,
        List.foldl_cons]
      exact ih (t2 :: ts) (pool.swapGivenIn t1 t2 acc)

/-- Modelled from the spec: `TokenAmount` arithmetic (spec &sect;3) — `add` is
only valid between amounts of the same token; mismatched-token arithmetic
fails with a `TokenMismatch` error. The implementation lives in the
entities module that is not part of the provided source. -/
def TokenAmount.add (a b : TokenAmount) : Except String TokenAmount :=
  if a.token = b.token then
    Except.ok { token := a.token, amount := a.amount + b.amount }
  else Except.error "TokenMismatch"

/-- `amounts.reduce((a, b) => a.add(b))`: a fold without initial value,
started from the first element. -/
def reduceAdd (acc : TokenAmount) : List TokenAmount → Except String TokenAmount
  | [] => Except.ok acc
  | b :: rest =>
    match acc.add b with
    | Except.ok c => reduceAdd c rest
    | Except.error e => Except.error e

/-- One priced-path record of a `Swap` (`{ path, inputAmount, outputAmount }`
in src/entities/path.ts, the `Swap` constructor argument). -/
structure SwapPathEntry where
  path : PathWithAmount
  inputAmount : TokenAmount
  outputAmount : TokenAmount

/-- The `Swap` entity. The transaction-encoding fields (`assets`, the
`BatchSwapStep` list and the native-asset rewrite) are calldata assembly
for the external vault and are outside the routed claims; the routed state
is kept. -/
structure Swap where
  paths : List SwapPathEntry
  swapKind : SwapKind
  isNativeSwap : Bool
  isBatchSwap : Bool

/-- The `Swap` constructor (src/entities/path.ts lines 81-98): throws on an
empty path list, records the kind, sets `isNativeSwap` from the swap
amount's token and `isBatchSwap` from
`paths.length > 1 || paths[0].path.pools.length > 2`. -/
def Swap.make (paths : List SwapPathEntry) (swapKind : SwapKind)
    (swapAmount : TokenAmount) : Except String Swap :=
  if paths.length = 0 then
    Except.error "Invalid swap: must contain at least 1 path."
  else
    Except.ok
      { paths := paths
        swapKind := swapKind
        isNativeSwap := swapAmount.token.isNative
        isBatchSwap :=
          decide (1 < paths.length) ||
            (match paths.head? with
             | some p => decide (2 < p.path.pools.length)
             | none => false) }

/-- `Swap.inputAmount` getter (src/entities/path.ts lines 156-164): check
that every path's input token equals the first path's, then reduce the
per-path input amounts with `add`. `paths[0]` on an empty swap is
`undefined` in the source (unreachable past the constructor guard); we
model that read as an error. -/
def Swap.inputAmount (s : Swap) : Except String TokenAmount :=
  match s.paths with
  | [] => Except.error "Invalid swap: must contain at least 1 path."
  | p0 :: rest =>
    if (p0 :: rest).all
        (fun p => p.inputAmount.token = p0.inputAmount.token) then
      reduceAdd p0.inputAmount (rest.map (fun p => p.inputAmount))
    else
      Except.error
        "Input amount can only be calculated if all paths have the same input token"

/-- `Swap.outputAmount` getter (src/entities/path.ts lines 166-174), dual
to `Swap.inputAmount`. -/
def Swap.outputAmount (s : Swap) : Except String TokenAmount :=
  match s.paths with
  | [] => Except.error "Invalid swap: must contain at least 1 path."
  | p0 :: rest =>
    if (p0 :: rest).all
        (fun p => p.outputAmount.token = p0.outputAmount.token) then
      reduceAdd p0.outputAmount (rest.map (fun p => p.outputAmount))
    else
      Except.error
        "Output amount can only be calculated if all paths have the same output token"

theorem reduceAdd_sameToken (l : List TokenAmount) :
    ∀ acc : TokenAmount, (∀ b ∈ l, b.token = acc.token) →
      reduceAdd acc l =
        Except.ok
          { token := acc.token,
            amount := acc.amount + (l.map TokenAmount.amount).sum } := by
  induction l with
  | nil => intro acc h; simp [reduceAdd]
  | cons b rest ih =>
    intro acc h
    have hb : b.token = acc.token := h b (List.mem_cons_self b rest)
    simp only [reduceAdd, TokenAmount.add, hb, eq_self_iff_true, if_true]
    rw [ih { token := acc.token, amount := acc.amount + b.amount }
      (fun x hx => h x (List.mem_cons_of_mem b hx))]
    simp [add_assoc]

theorem reduceAdd_isOk_of_sameToken (l : List TokenAmount)
    (acc : TokenAmount) (h : ∀ b ∈ l, b.token = acc.token) :
    (reduceAdd acc l).isOk := by
  rw [reduceAdd_sameToken l acc h]; rfl

/-- `SwapInfo` returned by the orchestrator (src SmartOrderRouter module,
lines 28-35). -/
structure SwapInfo where
  quote : TokenAmount
  swap : Swap
  paths : List SwapPathEntry

/-- `SmartOrderRouter.getSwaps` (src SmartOrderRouter module, lines 60-92):
fetch the pool snapshot, ask the router for candidate paths, price them
into a best `Swap`, and return `{ quote: swapAmount, swap, paths }`. The
pool provider and the `Router` are collaborators whose implementations are
not part of the provided source, so they enter as parameters; timing
instrumentation is dropped. Note the source sets `quote` to the caller's
requested `swapAmount`. -/
def getSwaps (getPools : List BasePool)
    (getCandidatePaths : Token → Token → SwapKind → List BasePool → List Path)
    (getBestPaths : List Path → SwapKind → TokenAmount → Except String Swap)
    (tokenIn tokenOut : Token) (swapKind : SwapKind)
    (swapAmount : TokenAmount) : Except String SwapInfo :=
  let pools := getPools
  let candidatePaths := getCandidatePaths tokenIn tokenOut swapKind pools
  match getBestPaths candidatePaths swapKind swapAmount with
  | Except.error e => Except.error e
  | Except.ok bestPaths =>
      Except.ok { quote := swapAmount, swap := bestPaths, paths := bestPaths.paths }

/-- A pricing-capable pool for concrete examples: each quote in direction
tokenIn→tokenOut moves the amount by one unit onto the right token, so
forward and reverse quoting are observably different from the identity. -/
def examplePool : BasePool :=
  { id := 1
    address := 10
    poolType := PoolType.Weighted
    tokens := [⟨mkToken 1⟩, ⟨mkToken 2⟩]
    getNormalizedLiquidity := fun _ _ => 100
    swapGivenIn := fun _ tokOut a => { token := tokOut, amount := a.amount - 1 }
    swapGivenOut := fun tokIn _ a => { token := tokIn, amount := a.amount + 1 } }

/-- A `GivenOut` priced path over `examplePool`: the swap amount is fixed
on the last token of the path. -/
def exampleGivenOutPath : PathWithAmount :=
  mkPathWithAmount [mkToken 1, mkToken 2] [examplePool]
    { token := mkToken 2, amount := 100 }

/-- A `GivenIn` priced path over `examplePool`. -/
def exampleGivenInPath : PathWithAmount :=
  mkPathWithAmount [mkToken 1, mkToken 2] [examplePool]
    { token := mkToken 1, amount := 100 }

/-- C1, counterexample: on a concrete `GivenOut` path the source's pricing
function returns the fixed swap amount unchanged; it does not apply the
pools' quoting functions in reverse token order (the reverse-quoted
counterpart differs). -/
theorem c1_givenout_not_reverse_quoted :
    exampleGivenOutPath.swapKind = SwapKind.GivenOut ∧
    exampleGivenOutPath.outputAmount = exampleGivenOutPath.swapAmount ∧
    exampleGivenOutPath.outputAmount ≠ specSequentialGivenOut exampleGivenOutPath := by
  refine ⟨rfl, rfl, ?_⟩
  decide

/-- C1, amended: pricing a `GivenIn` path applies each pool's quoting
function sequentially in token order; for a `GivenOut` path the source
returns the fixed swap amount unchanged and computes no reverse-quoted
counterpart. -/
theorem c1_pathwithamount_pricing (p : PathWithAmount) :
    p.outputAmount =
      match p.swapKind with
      | SwapKind.GivenIn => specSequentialGivenIn p
      | SwapKind.GivenOut => p.swapAmount := by
  cases h : p.swapKind <;>
    simp [PathWithAmount.outputAmount, h, specSequentialGivenIn,
      swapGivenInLoop_eq_foldl]

/-- C10: the swap kind of a `PathWithAmount` is inferred solely from token
identity: `GivenIn` exactly when the swap amount's token is the first path
token, `GivenOut` in every other case (intermediate or foreign tokens
included). -/
theorem c10_swapkind_inference (tokens : List Token) (pools : List BasePool)
    (swapAmount : TokenAmount) :
    ((mkPathWithAmount tokens pools swapAmount).swapKind = SwapKind.GivenIn ↔
      tokens.head? = some swapAmount.token) ∧
    ((mkPathWithAmount tokens pools swapAmount).swapKind = SwapKind.GivenOut ↔
      ¬ tokens.head? = some swapAmount.token) := by
  by_cases h : tokens.head? = some swapAmount.token <;> simp [mkPathWithAmount, h]

/-- C9: `isBatchSwap` is true exactly when the swap has more than one path
or its single (first) path uses more than two pools. -/
theorem c9_isbatchswap_rule (paths : List SwapPathEntry) (swapKind : SwapKind)
    (swapAmount : TokenAmount) (s : Swap)
    (h : Swap.make paths swapKind swapAmount = Except.ok s) :
    s.isBatchSwap = true ↔
      (1 < paths.length ∨
        ∃ p, paths.head? = some p ∧ 2 < p.path.pools.length) := by
  rcases paths with _ | ⟨p, rest⟩
  · simp [Swap.make] at h
  · simp only [Swap.make, List.length_cons] at h
    rw [if_neg (by simp)] at h
    cases h
    simp [List.head?]

def c9entry : SwapPathEntry :=
  { path :=
      mkPathWithAmount [mkToken 1, mkToken 2, mkToken 3]
        [examplePool, examplePool] { token := mkToken 1, amount := 5 }
    inputAmount := { token := mkToken 1, amount := 5 }
    outputAmount := { token := mkToken 3, amount := 3 } }

def c9paths : List SwapPathEntry := [c9entry]

/-- The `Swap` built from a single path that uses exactly two pools. -/
def c9swapVal : Swap :=
  { paths := c9paths
    swapKind := SwapKind.GivenIn
    isNativeSwap := false
    isBatchSwap := false }

/-- C9 witness: a swap with exactly one path using exactly two pools
satisfies the rule, and its `isBatchSwap` is `false`. -/
theorem c9_isbatchswap_witness :
    (c9swapVal.isBatchSwap = true ↔
      (1 < c9paths.length ∨
        ∃ p, c9paths.head? = some p ∧ 2 < p.path.pools.length)) ∧
    c9swapVal.isBatchSwap = false :=
  ⟨c9_isbatchswap_rule c9paths SwapKind.GivenIn
      { token := mkToken 1, amount := 5 } c9swapVal (by rfl),
    by rfl⟩

/-- C8: over a non-empty path list, the aggregate input amount is defined,
and equals the sum of the per-path input amounts, exactly when every path
has the first path's input token; otherwise the getter fails with the
inconsistent-route-tokens error instead of returning a value; dually for
the output side. -/
theorem c8_route_aggregation (s : Swap) (p0 : SwapPathEntry)
    (rest : List SwapPathEntry) (hp : s.paths = p0 :: rest) :
    ((s.inputAmount).isOk ↔
      ∀ p ∈ s.paths, p.inputAmount.token = p0.inputAmount.token) ∧
    ((∀ p ∈ s.paths, p.inputAmount.token = p0.inputAmount.token) →
      s.inputAmount =
        Except.ok
          { token := p0.inputAmount.token,
            amount := (s.paths.map (fun p => p.inputAmount.amount)).sum }) ∧
    ((¬ ∀ p ∈ s.paths, p.inputAmount.token = p0.inputAmount.token) →
      s.inputAmount =
        Except.error
          "Input amount can only be calculated if all paths have the same input token") ∧
    ((s.outputAmount).isOk ↔
      ∀ p ∈ s.paths, p.outputAmount.token = p0.outputAmount.token) ∧
    ((∀ p ∈ s.paths, p.outputAmount.token = p0.outputAmount.token) →
      s.outputAmount =
        Except.ok
          { token := p0.outputAmount.token,
            amount := (s.paths.map (fun p => p.outputAmount.amount)).sum }) ∧
    ((¬ ∀ p ∈ s.paths, p.outputAmount.token = p0.outputAmount.token) →
      s.outputAmount =
        Except.error
          "Output amount can only be calculated if all paths have the same output token") := by
  obtain ⟨paths, kind, nat, bat⟩ := s
  simp only at hp
  subst hp
  have hin :
      ∀ hall : ∀ p ∈ p0 :: rest, p.inputAmount.token = p0.inputAmount.token,
        Swap.inputAmount ⟨p0 :: rest, kind, nat, bat⟩ =
          Except.ok
            { token := p0.inputAmount.token,
              amount :=
                ((p0 :: rest).map (fun p => p.inputAmount.amount)).sum } := by
    intro hall
    simp only [Swap.inputAmount]
    rw [if_pos (by simp only [List.all_eq_true, decide_eq_true_eq]; exact hall)]
    rw [reduceAdd_sameToken (rest.map (fun p => p.inputAmount)) p0.inputAmount
      (by
        intro b hb
        obtain ⟨q, hq, rfl⟩ := List.mem_map.mp hb
        exact hall q (List.mem_cons_of_mem p0 hq))]
    simp [List.map_map, Function.comp_def]
  have hout :
      ∀ hall : ∀ p ∈ p0 :: rest, p.outputAmount.token = p0.outputAmount.token,
        Swap.outputAmount ⟨p0 :: rest, kind, nat, bat⟩ =
          Except.ok
            { token := p0.outputAmount.token,
              amount :=
                ((p0 :: rest).map (fun p => p.outputAmount.amount)).sum } := by
    intro hall
    simp only [Swap.outputAmount]
    rw [if_pos (by simp only [List.all_eq_true, decide_eq_true_eq]; exact hall)]
    rw [reduceAdd_sameToken (rest.map (fun p => p.outputAmount)) p0.outputAmount
      (by
        intro b hb
        obtain ⟨q, hq, rfl⟩ := List.mem_map.mp hb
        exact hall q (List.mem_cons_of_mem p0 hq))]
    simp [List.map_map, Function.comp_def]
  have hinErr :
      ∀ hnot : ¬ ∀ p ∈ p0 :: rest, p.inputAmount.token = p0.inputAmount.token,
        Swap.inputAmount ⟨p0 :: rest, kind, nat, bat⟩ =
          Except.error
            "Input amount can only be calculated if all paths have the same input token" := by
    intro hnot
    simp only [Swap.inputAmount]
    rw [if_neg (by simp only [List.all_eq_true, decide_eq_true_eq]; exact hnot)]
  have houtErr :
      ∀ hnot : ¬ ∀ p ∈ p0 :: rest, p.outputAmount.token = p0.outputAmount.token,
        Swap.outputAmount ⟨p0 :: rest, kind, nat, bat⟩ =
          Except.error
            "Output amount can only be calculated if all paths have the same output token" := by
    intro hnot
    simp only [Swap.outputAmount]
    rw [if_neg (by simp only [List.all_eq_true, decide_eq_true_eq]; exact hnot)]
  refine ⟨?_, hin, hinErr, ?_, hout, houtErr⟩
  · by_cases hall : ∀ p ∈ p0 :: rest, p.inputAmount.token = p0.inputAmount.token
    · rw [hin hall]; exact iff_of_true rfl hall
    · rw [hinErr hall]; exact iff_of_false (by decide) hall
  · by_cases hall : ∀ p ∈ p0 :: rest, p.outputAmount.token = p0.outputAmount.token
    · rw [hout hall]; exact iff_of_true rfl hall
    · rw [houtErr hall]; exact iff_of_false (by decide) hall

def c8entry1 : SwapPathEntry :=
  { path := exampleGivenInPath
    inputAmount := { token := mkToken 1, amount := 60 }
    outputAmount := { token := mkToken 2, amount := 59 } }

def c8entry2 : SwapPathEntry :=
  { path := exampleGivenInPath
    inputAmount := { token := mkToken 1, amount := 40 }
    outputAmount := { token := mkToken 3, amount := 39 } }

/-- A two-path swap whose paths share the input token but have mixed
output tokens. -/
def c8swapVal : Swap :=
  { paths := [c8entry1, c8entry2]
    swapKind := SwapKind.GivenIn
    isNativeSwap := false
    isBatchSwap := true }

/-- C8 witness: the aggregation rule instantiated on a concrete two-path
swap (shared input token, mixed output tokens). -/
theorem c8_route_aggregation_witness :
    ((c8swapVal.inputAmount).isOk ↔
      ∀ p ∈ c8swapVal.paths, p.inputAmount.token = c8entry1.inputAmount.token) ∧
    ((∀ p ∈ c8swapVal.paths, p.inputAmount.token = c8entry1.inputAmount.token) →
      c8swapVal.inputAmount =
        Except.ok
          { token := c8entry1.inputAmount.token,
            amount := (c8swapVal.paths.map (fun p => p.inputAmount.amount)).sum }) ∧
    ((¬ ∀ p ∈ c8swapVal.paths, p.inputAmount.token = c8entry1.inputAmount.token) →
      c8swapVal.inputAmount =
        Except.error
          "Input amount can only be calculated if all paths have the same input token") ∧
    ((c8swapVal.outputAmount).isOk ↔
      ∀ p ∈ c8swapVal.paths, p.outputAmount.token = c8entry1.outputAmount.token) ∧
    ((∀ p ∈ c8swapVal.paths, p.outputAmount.token = c8entry1.outputAmount.token) →
      c8swapVal.outputAmount =
        Except.ok
          { token := c8entry1.outputAmount.token,
            amount := (c8swapVal.paths.map (fun p => p.outputAmount.amount)).sum }) ∧
    ((¬ ∀ p ∈ c8swapVal.paths, p.outputAmount.token = c8entry1.outputAmount.token) →
      c8swapVal.outputAmount =
        Except.error
          "Output amount can only be calculated if all paths have the same output token") :=
  c8_route_aggregation c8swapVal c8entry1 [c8entry2] rfl

/-- A router result used to exercise the orchestrator: one priced path,
input 100 of token 1, output 150 of token 2. -/
def stubBestSwap : Swap :=
  { paths :=
      [{ path := exampleGivenInPath
         inputAmount := { token := mkToken 1, amount := 100 }
         outputAmount := { token := mkToken 2, amount := 150 } }]
    swapKind := SwapKind.GivenIn
    isNativeSwap := false
    isBatchSwap := false }

def stubGetCandidatePaths : Token → Token → SwapKind → List BasePool → List Path :=
  fun _ _ _ _ => []

def stubGetBestPaths : List Path → SwapKind → TokenAmount → Except String Swap :=
  fun _ _ _ => Except.ok stubBestSwap

/-- C2: evaluated at a concrete request, `getSwaps` returns the caller's
requested swap amount (100 of token 1) as the quote, even though the
selected route's aggregate priced amount is 150 of token 2. -/
theorem c2_quote_echoes_request :
    getSwaps [examplePool] stubGetCandidatePaths stubGetBestPaths
        (mkToken 1) (mkToken 2) SwapKind.GivenIn
        { token := mkToken 1, amount := 100 } =
      Except.ok
        { quote := { token := mkToken 1, amount := 100 }
          swap := stubBestSwap
          paths := stubBestSwap.paths } ∧
    stubBestSwap.outputAmount =
      Except.ok { token := mkToken 2, amount := 150 } ∧
    ({ token := mkToken 1, amount := 100 } : TokenAmount) ≠
      { token := mkToken 2, amount := 150 } := by
  refine ⟨rfl, rfl, ?_⟩
  decide

/-- C7, counterexample: a degenerate request — identical input and output
tokens and an empty pool snapshot — is not rejected by the orchestrator:
`getSwaps` succeeds, so no `IdenticalTokens` / `NoLiquidity` failure
happens before graph construction or search. -/
theorem c7_degenerate_request_not_rejected :
    (getSwaps [] stubGetCandidatePaths stubGetBestPaths (mkToken 1) (mkToken 1)
        SwapKind.GivenIn { token := mkToken 1, amount := 100 }).isOk = true := by
  rfl

/-- C7, amended: the orchestrator performs no eager input validation — on a
degenerate request (identical tokens or empty pool snapshot) it still runs
candidate search and path pricing and returns exactly whatever the router
produced, with the requested amount echoed as the quote. -/
theorem c7_no_eager_validation (getPools : List BasePool)
    (gcp : Token → Token → SwapKind → List BasePool → List Path)
    (gbp : List Path → SwapKind → TokenAmount → Except String Swap)
    (tokenIn tokenOut : Token) (kind : SwapKind) (amt : TokenAmount)
    (hdeg : tokenIn = tokenOut ∨ getPools = []) :
    getSwaps getPools gcp gbp tokenIn tokenOut kind amt =
      (gbp (gcp tokenIn tokenOut kind getPools) kind amt).map
        (fun s => { quote := amt, swap := s, paths := s.paths }) := by
  cases h : gbp (gcp tokenIn tokenOut kind getPools) kind amt with
  | error e => simp [getSwaps, h, Except.map]
  | ok s => simp [getSwaps, h, Except.map]

/-- C7 witness: the no-eager-validation rule instantiated at an identical
token pair with an empty snapshot. -/
theorem c7_no_eager_validation_witness :
    getSwaps [] stubGetCandidatePaths stubGetBestPaths (mkToken 1) (mkToken 1)
        SwapKind.GivenIn { token := mkToken 1, amount := 100 } =
      (stubGetBestPaths
          (stubGetCandidatePaths (mkToken 1) (mkToken 1) SwapKind.GivenIn [])
          SwapKind.GivenIn { token := mkToken 1, amount := 100 }).map
        (fun s => { quote := { token := mkToken 1, amount := 100 },
                    swap := s, paths := s.paths }) :=
  c7_no_eager_validation [] stubGetCandidatePaths stubGetBestPaths
    (mkToken 1) (mkToken 1) SwapKind.GivenIn
    { token := mkToken 1, amount := 100 } (Or.inl rfl)

/-- `PoolTokenPair` from `types.ts` / pathGraphTypes: a pool with an
ordered token pair (the string `id` key is the ordered address pair). -/
structure PoolTokenPair where
  pool : BasePool
  tokenIn : Token
  tokenOut : Token

/-- `PathGraphEdgeLabel` (pathGraphTypes). -/
structure PathGraphEdgeLabel where
  poolId : Nat
  poolAddress : Addr
  poolPair : PoolTokenPair
  normalizedLiquidity : Int
  isPhantomBptHop : Bool

/-- `PathGraphEdge` (pathGraphTypes): an edge label together with the
tokenIn/tokenOut of the hop, as spread by `buildPath`. -/
structure PathGraphEdge where
  tokenIn : Addr
  tokenOut : Addr
  poolId : Nat
  poolAddress : Addr
  poolPair : PoolTokenPair
  normalizedLiquidity : Int
  isPhantomBptHop : Bool

/-- A stored edge of the graphlib multigraph: endpoints plus label; the
graphlib edge name is `(label.poolId, v, w)` (the source's
`poolId-tokenIn-tokenOut` string). -/
structure GraphEdge where
  v : Addr
  w : Addr
  label : PathGraphEdgeLabel

/-- Same graphlib edge name: same pool id and endpoints. -/
def sameEdgeName (e1 e2 : GraphEdge) : Bool :=
  e1.label.poolId == e2.label.poolId && e1.v == e2.v && e1.w == e2.w

/-- graphlib `setEdge` on a multigraph: replace the edge with the same name
in place, else append. The edge list carries graphlib's insertion order,
which is what `outEdges` and `successors` expose. -/
def setEdge (g : List GraphEdge) (e : GraphEdge) : List GraphEdge :=
  if g.any (fun x => sameEdgeName x e) then
    g.map (fun x => if sameEdgeName x e then e else x)
  else g ++ [e]

/-- graphlib `hasNode`: nodes are created by edge insertion only. -/
def hasNode (g : List GraphEdge) (a : Addr) : Bool :=
  g.any (fun e => e.v == a || e.w == a)

def dedupFirstAux {α : Type} [DecidableEq α] (seen : List α) : List α → List α
  | [] => []
  | a :: as =>
    if seen.contains a then dedupFirstAux seen as
    else a :: dedupFirstAux (a :: seen) as

/-- Keep the first occurrence of each element (lodash `uniq`, and the
first-insertion key order of JS objects / graphlib successor sets). -/
def dedupFirst {α : Type} [DecidableEq α] (l : List α) : List α :=
  dedupFirstAux [] l

/-- graphlib `successors`: targets of outgoing edges, in first-insertion
order, without duplicates. -/
def graphSuccessors (g : List GraphEdge) (a : Addr) : List Addr :=
  dedupFirst ((g.filter (fun e => e.v == a)).map (fun e => e.w))

/-- graphlib `outEdges(v, w)`: parallel edges from `v` to `w` in insertion
order. -/
def graphOutEdges (g : List GraphEdge) (v w : Addr) : List GraphEdge :=
  g.filter (fun e => e.v == v && e.w == w)

/-- lodash `keyBy(pools, 'address')` read: the last pool with the given
address wins. -/
def lookupPool (pools : List BasePool) (a : Addr) : Option BasePool :=
  pools.reverse.find? (fun p => p.address == a)

/-- One entry of the sorted pool-pair map: `{ poolPair, normalizedLiquidity }`. -/
structure PoolPairItem where
  poolPair : PoolTokenPair
  normalizedLiquidity : Int

/-- The ordered `(i, j), i < j` pairs of a pool's token list, in the
source's nested-loop order. -/
def orderedTokenPairs : List PoolToken → List (Token × Token)
  | [] => []
  | x :: xs => (xs.map (fun y => (x.token, y.token))) ++ orderedTokenPairs xs

/-- The forward and reverse pool-pair entries a pool contributes
(`buildSortedPoolPairMap`, inner loops): for each `i < j` pair, one entry
per orientation, each with the pool's normalized liquidity for that
orientation. -/
def poolPairItems (pool : BasePool) : List PoolPairItem :=
  (orderedTokenPairs pool.tokens).flatMap (fun pr =>
    [ { poolPair := { pool := pool, tokenIn := pr.1, tokenOut := pr.2 },
        normalizedLiquidity := pool.getNormalizedLiquidity pr.1 pr.2 },
      { poolPair := { pool := pool, tokenIn := pr.2, tokenOut := pr.1 },
        normalizedLiquidity := pool.getNormalizedLiquidity pr.2 pr.1 } ])

def allPoolPairItems (pools : List BasePool) : List PoolPairItem :=
  pools.flatMap poolPairItems

/-- An item's ordered token-pair key (the map key
`tokenIn.address-tokenOut.address`). -/
def itemKey (it : PoolPairItem) : Addr × Addr :=
  (it.poolPair.tokenIn.address, it.poolPair.tokenOut.address)

/-- The pool-pair map's keys in first-creation order (JS object key
order). -/
def poolPairKeys (pools : List BasePool) : List (Addr × Addr) :=
  dedupFirst ((allPoolPairItems pools).map itemKey)

/-- The entries pushed under one key, in push order. -/
def itemsForKey (pools : List BasePool) (k : Addr × Addr) : List PoolPairItem :=
  (allPoolPairItems pools).filter (fun it => itemKey it == k)

/-- Stable descending insertion for the liquidity sort (lodash `orderBy`
with `'desc'` is stable). -/
def insertDescByLiq (e : PoolPairItem) : List PoolPairItem → List PoolPairItem
  | [] => [e]
  | x :: xs =>
    if x.normalizedLiquidity ≤ e.normalizedLiquidity then e :: x :: xs
    else x :: insertDescByLiq e xs

def sortItemsByLiqDesc (l : List PoolPairItem) : List PoolPairItem :=
  l.foldr insertDescByLiq []

/-- One key's group of `buildSortedPoolPairMap`: pushed entries, sorted
descending by normalized liquidity. -/
def sortedItemsForKey (pools : List BasePool) (k : Addr × Addr) :
    List PoolPairItem :=
  sortItemsByLiqDesc (itemsForKey pools k)

/-- The `buildGraph` keep condition for the entry at sorted position `i`:
the looked-up pool's member-token addresses contain the entry pool's own
address (a phantom-BPT pool). -/
def phantomKeep (pools : List BasePool) (it : PoolPairItem) : Bool :=
  match lookupPool pools it.poolPair.pool.address with
  | some pool =>
      (pool.tokens.map (fun t => t.token.address)).contains
        it.poolPair.pool.address
  | none => false

/-- Walk a sorted group with its index, keeping position `< maxPathsPerTokenPair`
or phantom-BPT entries (`buildGraph`, lines 186-203). -/
def keepTopOrPhantom (pools : List BasePool) (maxPathsPerTokenPair : Nat) :
    Nat → List PoolPairItem → List PoolPairItem
  | _, [] => []
  | i, it :: rest =>
    if i < maxPathsPerTokenPair ∨ phantomKeep pools it = true then
      it :: keepTopOrPhantom pools maxPathsPerTokenPair (i + 1) rest
    else keepTopOrPhantom pools maxPathsPerTokenPair (i + 1) rest

/-- The graph edge built by `addGraphEdgeForPoolPair` (lines 387-423): the
label (with the phantom-hop flag from the address map) at the endpoints
`tokenIn.address -> tokenOut.address`, named `(pool.id, tokenIn, tokenOut)`. -/
def mkPoolPairEdge (pools : List BasePool) (tokenIn tokenOut : Token)
    (pool : BasePool) : GraphEdge :=
  let poolPair : PoolTokenPair :=
    { pool := pool, tokenIn := tokenIn, tokenOut := tokenOut }
  let label : PathGraphEdgeLabel :=
    { poolId := pool.id
      poolAddress := pool.address
      poolPair := poolPair
      normalizedLiquidity := pool.getNormalizedLiquidity tokenIn tokenOut
      isPhantomBptHop :=
        (lookupPool pools tokenIn.address).isSome ||
          (lookupPool pools tokenOut.address).isSome }
  { v := tokenIn.address, w := tokenOut.address, label := label }

/-- `addGraphEdgeForPoolPair`: `setEdge` the built edge. -/
def addGraphEdgeForPoolPair (pools : List BasePool) (tokenIn tokenOut : Token)
    (pool : BasePool) (graph : List GraphEdge) : List GraphEdge :=
  setEdge graph (mkPoolPairEdge pools tokenIn tokenOut pool)

/-- One kept entry of the `buildGraph` inner loop: look up the entry pool
in the address map and insert its edge (a pool address missing from the
map is impossible for entries generated from the pool list; the lookup is
skipped defensively). -/
def addItemEdge (pools : List BasePool) (graph : List GraphEdge)
    (it : PoolPairItem) : List GraphEdge :=
  match lookupPool pools it.poolPair.pool.address with
  | some pool =>
      addGraphEdgeForPoolPair pools it.poolPair.tokenIn it.poolPair.tokenOut
        pool graph
  | none => graph

/-- `PathGraph.buildGraph` (lines 172-209): group and sort the pool pairs,
keep the top `maxPathsPerTokenPair` entries of each ordered-pair group plus
every phantom-BPT entry, and insert the kept edges. -/
def buildGraph (pools : List BasePool) (maxPathsPerTokenPair : Nat) :
    List GraphEdge :=
  (poolPairKeys pools).foldl
    (fun graph k =>
      (keepTopOrPhantom pools maxPathsPerTokenPair 0
          (sortedItemsForKey pools k)).foldl (addItemEdge pools) graph)
    []

/-- `PathGraphTraversalConfig` (pathGraphTypes), with the traversal's
defaults applied by `traverseGraphAndFindBestPaths`. -/
structure PathGraphTraversalConfig where
  maxDepth : Nat
  maxNonBoostedPathDepth : Nat
  maxNonBoostedHopTokensInBoostedPath : Nat
  approxPathsToReturn : Nat
  poolIdsToInclude : Option (List Nat)

/-- The defaults of lines 241-247. -/
def defaultTraversalConfig : PathGraphTraversalConfig :=
  { maxDepth := 7
    maxNonBoostedPathDepth := 3
    maxNonBoostedHopTokensInBoostedPath := 1
    approxPathsToReturn := 5
    poolIdsToInclude := none }

/-- `PathGraph.isValidTokenPath` (lines 601-642): depth bound, and the
non-boosted hop-token budget checks over the running token path. -/
def isValidTokenPath (pools : List BasePool) (tokenPath : List Addr)
    (config : PathGraphTraversalConfig) (tokenIn tokenOut : Addr) : Bool :=
  let hopTokens :=
    tokenPath.filter (fun token => !(token == tokenIn) && !(token == tokenOut))
  let numStandardHopTokens :=
    (hopTokens.filter (fun token => (lookupPool pools token).isNone)).length
  let isBoostedPath :=
    0 < (tokenPath.filter (fun token => (lookupPool pools token).isSome)).length
  if config.maxDepth < tokenPath.length then false
  else if isBoostedPath ∧
      config.maxNonBoostedHopTokensInBoostedPath < numStandardHopTokens then
    false
  else if config.maxNonBoostedPathDepth < tokenPath.length ∧
      config.maxNonBoostedHopTokensInBoostedPath < numStandardHopTokens then
    false
  else true

/-- The source's path id `poolId-tokenIn-tokenOut ... _ ...` as a list of
triples (`getIdForPath`, lines 587-593). -/
def getIdForPath (path : List PathGraphEdge) : List (Nat × Addr × Addr) :=
  path.map (fun segment => (segment.poolId, segment.tokenIn, segment.tokenOut))

/-- `PathGraph.isValidPath` (lines 532-585): allow-list, non-boosted depth
bound on the materialized path, no repeated pool, no pool from the seen
set, and no duplicate path id. -/
def isValidPath (pools : List BasePool) (path : List PathGraphEdge)
    (seenPoolAddresses : List Addr)
    (selectedPathIds : List (List (Nat × Addr × Addr)))
    (config : PathGraphTraversalConfig) : Bool :=
  let allowed : Bool :=
    match config.poolIdsToInclude with
    | some allow => path.all (fun edge => allow.contains edge.poolId)
    | none => true
  if !allowed then false
  else
    let isBoostedPath :=
      0 < (path.filter (fun edge =>
            (lookupPool pools edge.tokenIn).isSome ||
              (lookupPool pools edge.tokenOut).isSome)).length
    if ¬ isBoostedPath ∧ config.maxNonBoostedPathDepth < path.length + 1 then
      false
    else
      let uniquePools := dedupFirst (path.map (fun edge => edge.poolId))
      if ¬ uniquePools.length = path.length then false
      else if 0 < (path.filter (fun segment =>
            seenPoolAddresses.contains segment.poolAddress)).length then
        false
      else if selectedPathIds.contains (getIdForPath path) then false
      else true

/-- The edge picked for one hop of `buildPath` (lines 497-530): the
preferred rank's edge, else rank 0
(`outEdges[tokenPairIndex] || outEdges[0]`); a missing edge (impossible for
pairs qualified by the traversal, per the source comment) aborts. -/
def hopEdge (g : List GraphEdge) (tokenPairIndex : Nat) (a b : Addr) :
    Option GraphEdge :=
  ((graphOutEdges g a b).get? tokenPairIndex).orElse
    (fun _ => (graphOutEdges g a b).get? 0)

/-- The `PathGraphEdge` segment for one hop: the chosen edge's label spread
with the hop's endpoints. -/
def hopSegment (a b : Addr) (ge : GraphEdge) : PathGraphEdge :=
  { tokenIn := a
    tokenOut := b
    poolId := ge.label.poolId
    poolAddress := ge.label.poolAddress
    poolPair := ge.label.poolPair
    normalizedLiquidity := ge.label.normalizedLiquidity
    isPhantomBptHop := ge.label.isPhantomBptHop }

def buildPathGo (g : List GraphEdge) (tokenPairIndex : Nat) :
    Addr → List Addr → Option (List PathGraphEdge × Bool)
  | _, [] => some ([], false)
  | a, b :: rest =>
    match hopEdge g tokenPairIndex a b with
    | none => none
    | some ge =>
      match buildPathGo g tokenPairIndex b rest with
      | none => none
      | some (tail, u) =>
        some (hopSegment a b ge :: tail,
          (decide (tokenPairIndex < (graphOutEdges g a b).length)) || u)

/-- `PathGraph.buildPath`: materialize the edges along a token path;
discard the path (`null`) when no hop used the preferred rank. -/
def buildPath (g : List GraphEdge) (tokenPath : List Addr)
    (tokenPairIndex : Nat) : Option (List PathGraphEdge) :=
  match tokenPath with
  | [] => none
  | a :: rest =>
    match buildPathGo g tokenPairIndex a rest with
    | none => none
    | some (path, isUnique) => if isUnique then some path else none

def firstSome {α : Type} : List (Option α) → Option α
  | [] => none
  | some a :: _ => some a
  | none :: rest => firstSome rest

/-- The successors of the current token not yet visited in this branch. -/
def unvisitedSuccessors (g : List GraphEdge) (tokenPath : List Addr)
    (token : Addr) : List Addr :=
  (graphSuccessors g token).filter (fun s => !(tokenPath.contains s))

/-- The immediate path-closing attempt: when `tokenOut` is a direct
successor, materialize `tokenPath ++ [tokenOut]` and accept it if valid. -/
def directClosedPath (pools : List BasePool) (g : List GraphEdge)
    (tokenOut : Addr) (tokenPairIndex : Nat)
    (config : PathGraphTraversalConfig) (seenPoolAddresses : List Addr)
    (selectedPathIds : List (List (Nat × Addr × Addr)))
    (tokenPath : List Addr) (successors : List Addr) :
    Option (List PathGraphEdge) :=
  if successors.contains tokenOut then
    match buildPath g (tokenPath ++ [tokenOut]) tokenPairIndex with
    | some path =>
      if isValidPath pools path seenPoolAddresses selectedPathIds config then
        some path
      else none
    | none => none
  else none

/-- The one-step-lookahead ordering (a stable two-key lodash `sortBy` is a
stable partition), then the re-filter against the visited branch. -/
def sortSuccessorsByLookahead (g : List GraphEdge) (tokenOut : Addr)
    (tokenPath : List Addr) (successors : List Addr) : List Addr :=
  (((successors.partition
      (fun s => (graphSuccessors g s).contains tokenOut)).1 ++
    (successors.partition
      (fun s => (graphSuccessors g s).contains tokenOut)).2).filter
    (fun s => !(tokenPath.contains s)))

/-- `PathGraph.traverseGraphAndFindUniquePath` (lines 425-495): validity
check on the running token path, then an immediate attempt to close the
path if `tokenOut` is a direct successor, then depth-first recursion over
the successors, visiting first those whose own successors reach `tokenOut`
(the stable two-key lodash `sortBy` is a stable partition). The `fuel`
argument makes the recursion structural; every call consumes one unit and
extends the token path by one, and since `isValidTokenPath` rejects any
token path longer than `maxDepth`, a start at `[tokenIn]` with fuel
`maxDepth + 1` behaves exactly like the unbounded source recursion. -/
def traverseGraphAndFindUniquePath (pools : List BasePool)
    (g : List GraphEdge) (tokenIn tokenOut : Addr) (tokenPairIndex : Nat)
    (config : PathGraphTraversalConfig) (seenPoolAddresses : List Addr)
    (selectedPathIds : List (List (Nat × Addr × Addr))) :
    Nat → List Addr → Addr → Option (List PathGraphEdge)
  | 0, _, _ => none
  | Nat.succ fuel, tokenPath, token =>
    if isValidTokenPath pools tokenPath config tokenIn tokenOut then
      match directClosedPath pools g tokenOut tokenPairIndex config
          seenPoolAddresses selectedPathIds tokenPath
          (unvisitedSuccessors g tokenPath token) with
      | some path => some path
      | none =>
        firstSome ((sortSuccessorsByLookahead g tokenOut tokenPath
            (unvisitedSuccessors g tokenPath token)).map (fun s =>
          traverseGraphAndFindUniquePath pools g tokenIn tokenOut
            tokenPairIndex config seenPoolAddresses selectedPathIds fuel
            (tokenPath ++ [s]) s))
    else none

/-- The cross-path state of `traverseGraphAndFindBestPaths`: accepted
paths, their ids, and the seen-pool set. -/
structure SearchState where
  paths : List (List PathGraphEdge)
  selectedPathIds : List (List (Nat × Addr × Addr))
  seenPoolAddresses : List Addr

/-- The inner `while (foundPath)` loop (lines 263-287): repeatedly search
for a unique path at the preferred rank, accumulating each found path, its
id and its pool addresses, until no further path is found. The loop has no
static bound, so it carries fuel. -/
def innerSearchLoop (pools : List BasePool) (g : List GraphEdge)
    (tokenIn tokenOut : Addr) (tokenPairIndex : Nat)
    (config : PathGraphTraversalConfig) : Nat → SearchState → SearchState
  | 0, st => st
  | Nat.succ fuel, st =>
    match traverseGraphAndFindUniquePath pools g tokenIn tokenOut
        tokenPairIndex config st.seenPoolAddresses st.selectedPathIds
        (config.maxDepth + 1) [tokenIn] tokenIn with
    | none => st
    | some path =>
      innerSearchLoop pools g tokenIn tokenOut tokenPairIndex config fuel
        { paths := st.paths ++ [path]
          selectedPathIds := st.selectedPathIds ++ [getIdForPath path]
          seenPoolAddresses :=
            st.seenPoolAddresses ++ path.map (fun segment => segment.poolAddress) }

/-- One full rank round: `for (let idx = 0; idx < maxPathsPerTokenPair; idx++)`
(lines 256-288). -/
def searchRound (pools : List BasePool) (g : List GraphEdge)
    (tokenIn tokenOut : Addr) (config : PathGraphTraversalConfig)
    (maxPathsPerTokenPair : Nat) (innerFuel : Nat)
    (st : SearchState) : SearchState :=
  (List.range maxPathsPerTokenPair).foldl
    (fun st idx =>
      innerSearchLoop pools g tokenIn tokenOut idx config innerFuel st)
    st

/-- `PathGraph.filterVolatilePools` (lines 595-599): the seen addresses
whose pool type is `Weighted`. -/
def filterVolatilePools (pools : List BasePool) (poolAddresses : List Addr) :
    List Addr :=
  poolAddresses.filter (fun address =>
    match lookupPool pools address with
    | some pool => decide (pool.poolType = PoolType.Weighted)
    | none => false)

/-- The seen-pool relaxation of lines 298-308: keep only the volatile
(Weighted) addresses when they are a proper non-empty subset of the seen
set, otherwise clear the seen set entirely. -/
def relaxSeenPools (pools : List BasePool) (seen : List Addr) : List Addr :=
  let volatilePoolAddresses := filterVolatilePools pools seen
  if 0 < volatilePoolAddresses.length ∧
      volatilePoolAddresses.length < seen.length then
    volatilePoolAddresses
  else []

/-- The outer `while (paths.length < approxPathsToReturn)` loop of
`traverseGraphAndFindBestPaths` (lines 253-314): run a full rank round;
if still short of the target and pools have been seen, relax the seen set
and retry, else stop with what was collected. Fuelled: the outer loop has
no static iteration bound. -/
def bestPathsLoop (pools : List BasePool) (g : List GraphEdge)
    (tokenIn tokenOut : Addr) (config : PathGraphTraversalConfig)
    (maxPathsPerTokenPair : Nat) (innerFuel : Nat) :
    Nat → SearchState → SearchState
  | 0, st => st
  | Nat.succ fuel, st =>
    if st.paths.length < config.approxPathsToReturn then
      if (searchRound pools g tokenIn tokenOut config maxPathsPerTokenPair
            innerFuel st).paths.length < config.approxPathsToReturn ∧
          0 < (searchRound pools g tokenIn tokenOut config
            maxPathsPerTokenPair innerFuel st).seenPoolAddresses.length then
        bestPathsLoop pools g tokenIn tokenOut config maxPathsPerTokenPair
          innerFuel fuel
          { searchRound pools g tokenIn tokenOut config maxPathsPerTokenPair
              innerFuel st with
            seenPoolAddresses :=
              relaxSeenPools pools
                (searchRound pools g tokenIn tokenOut config
                  maxPathsPerTokenPair innerFuel st).seenPoolAddresses }
      else
        searchRound pools g tokenIn tokenOut config maxPathsPerTokenPair
          innerFuel st
    else st

/-- The `Path` objects returned by the traversal (lines 316-323): the first
edge's `poolPair.tokenIn` followed by each segment's `poolPair.tokenOut`,
and the pools looked up by segment address. -/
structure FoundPath where
  tokens : List Token
  pools : List BasePool

def pathEdgesToFoundPath (pools : List BasePool)
    (path : List PathGraphEdge) : FoundPath :=
  match path with
  | [] => { tokens := [], pools := [] }
  | e0 :: _ =>
    { tokens := e0.poolPair.tokenIn :: path.map (fun segment => segment.poolPair.tokenOut)
      pools := path.filterMap (fun segment => lookupPool pools segment.poolAddress) }

/-- `PathGraph.traverseGraphAndFindBestPaths` (lines 224-324) over an
already-built graph: empty result when either endpoint is not a node, else
the fuelled search loop from the empty state, mapped to `Path` objects. -/
def traverseGraphAndFindBestPaths (pools : List BasePool)
    (g : List GraphEdge) (tokenIn tokenOut : Token)
    (config : PathGraphTraversalConfig) (maxPathsPerTokenPair : Nat)
    (searchFuel : Nat) : List FoundPath :=
  if hasNode g tokenIn.address && hasNode g tokenOut.address then
    let final :=
      bestPathsLoop pools g tokenIn.address tokenOut.address config
        maxPathsPerTokenPair searchFuel searchFuel
        { paths := [], selectedPathIds := [], seenPoolAddresses := [] }
    final.paths.map (pathEdgesToFoundPath pools)
  else []

/-- `buildGraph` followed by the traversal: the `findPaths` pipeline the
claims quantify over. -/
def findPaths (pools : List BasePool) (maxPathsPerTokenPair : Nat)
    (tokenIn tokenOut : Token) (config : PathGraphTraversalConfig)
    (searchFuel : Nat) : List FoundPath :=
  traverseGraphAndFindBestPaths pools (buildGraph pools maxPathsPerTokenPair)
    tokenIn tokenOut config maxPathsPerTokenPair searchFuel

/-- A pool for the routing scenarios: constant liquidity metric, identity
quoting. -/
def mkRouterPool (i : Nat) (a : Addr) (ty : PoolType) (toks : List Addr)
    (liq : Int) : BasePool :=
  { id := i
    address := a
    poolType := ty
    tokens := toks.map (fun t => { token := mkToken t })
    getNormalizedLiquidity := fun _ _ => liq
    swapGivenIn := fun _ tokOut amt => { token := tokOut, amount := amt.amount }
    swapGivenOut := fun tokIn _ amt => { token := tokIn, amount := amt.amount } }

def c5poolAB : BasePool := mkRouterPool 101 11 PoolType.Weighted [1, 2] 100

def c5poolBC : BasePool :=
  mkRouterPool 102 12 PoolType.ComposableStable [2, 3] 100

/-- A phantom-BPT pool: its own address (4) is one of its member tokens. -/
def c5poolCZ : BasePool := mkRouterPool 103 4 PoolType.AaveLinear [3, 4] 100

def c5pools : List BasePool := [c5poolAB, c5poolBC, c5poolCZ]

def c5result : List FoundPath :=
  findPaths c5pools 2 (mkToken 1) (mkToken 4) defaultTraversalConfig 10

def c3poolS : BasePool :=
  mkRouterPool 201 21 PoolType.ComposableStable [1, 2] 100

def c3poolW1 : BasePool := mkRouterPool 202 22 PoolType.Weighted [2, 3] 100

def c3poolW2 : BasePool := mkRouterPool 203 23 PoolType.Weighted [2, 3] 90

def c3pools : List BasePool := [c3poolS, c3poolW1, c3poolW2]

def c3result : List FoundPath :=
  findPaths c3pools 2 (mkToken 1) (mkToken 3) defaultTraversalConfig 10

/-- The claim-side depth bounds of C5: a non-boosted path (no token is a
pool address) has at most `maxNonBoostedPathDepth + 1` tokens; a boosted
path has at most `maxNonBoostedHopTokensInBoostedPath` intermediate
(non-endpoint) tokens that are not pool addresses. -/
def standardIntermediateCount (pools : List BasePool)
    (tokens : List Token) : Nat :=
  (((tokens.drop 1).dropLast).filter
    (fun t => (lookupPool pools t.address).isNone)).length

def isBoostedTokenList (pools : List BasePool) (tokens : List Token) : Bool :=
  tokens.any (fun t => (lookupPool pools t.address).isSome)

def satisfiesDepthBounds (pools : List BasePool)
    (config : PathGraphTraversalConfig) (fp : FoundPath) : Bool :=
  if isBoostedTokenList pools fp.tokens then
    decide (standardIntermediateCount pools fp.tokens ≤
      config.maxNonBoostedHopTokensInBoostedPath)
  else decide (fp.tokens.length ≤ config.maxNonBoostedPathDepth + 1)

/-- C5: on the concrete snapshot `c5pools` (a weighted A-B pool, a stable
B-C pool, and a phantom-BPT pool whose own address is the output token Z),
`findPaths(A, Z)` under the default config accepts the boosted path
A-B-C-Z with two standard intermediate hop tokens (B and C), exceeding
`maxNonBoostedHopTokensInBoostedPath = 1`: the eager token-path check is
never re-run once the final hop to `tokenOut` is appended, contradicting
the source's own documentation of the config option (lines 214-216). -/
theorem c5_hop_budget_violated :
    c5result.map
        (fun p => (p.tokens.map Token.address, p.pools.map BasePool.id)) =
      [([1, 2, 3, 4], [101, 102, 103])] ∧
    (∃ fp ∈ c5result,
      isBoostedTokenList c5pools fp.tokens = true ∧
      standardIntermediateCount c5pools fp.tokens = 2) ∧
    defaultTraversalConfig.maxNonBoostedHopTokensInBoostedPath = 1 ∧
    ¬ (∀ fp ∈ c5result,
        satisfiesDepthBounds c5pools defaultTraversalConfig fp = true) := by
  refine ⟨by decide, ?_, rfl, by decide⟩
  decide

/-- The volatility test used by `filterVolatilePools`: the pool at this
address (per the address map) has type `Weighted`. -/
def isVolatileAddr (pools : List BasePool) (address : Addr) : Bool :=
  match lookupPool pools address with
  | some pool => decide (pool.poolType = PoolType.Weighted)
  | none => false

theorem filterVolatilePools_eq_filter (pools : List BasePool)
    (poolAddresses : List Addr) :
    filterVolatilePools pools poolAddresses =
      poolAddresses.filter (isVolatileAddr pools) := rfl

/-- The claim-side relaxation of C3: remove from the seen set exactly the
plain (volatile/weighted) pools. -/
def removePlainPools (pools : List BasePool) (seen : List Addr) : List Addr :=
  seen.filter (fun a => !(isVolatileAddr pools a))

/-- C3, counterexample: after the first round of the concrete `c3pools`
search the seen set is `[21, 22]` (stable pool 201 at 21, weighted pool 202
at 22). The code's relaxation keeps exactly the weighted address and drops
the stable one — the opposite of removing the plain pools — and the
pipeline consequently returns two paths that both reuse the stable pool
201, which removing only plain pools could never allow. -/
theorem c3_relaxation_keeps_weighted :
    relaxSeenPools c3pools [21, 22] = [22] ∧
    removePlainPools c3pools [21, 22] = [21] ∧
    ([22] : List Addr) ≠ [21] ∧
    c3result.map (fun p => p.pools.map BasePool.id) = [[201, 202], [201, 203]] := by
  refine ⟨rfl, rfl, by decide, by decide⟩

def emptySearchState : SearchState :=
  { paths := [], selectedPathIds := [], seenPoolAddresses := [] }

/-- C3, amended: when the outer loop still has fuel and fewer than
`approxPathsToReturn` paths, it runs one full rank round; if the round
leaves it short with a non-empty seen set it retries with the seen set
relaxed by `relaxSeenPools`, else it stops with what was collected — and
the relaxed set keeps exactly the plain (Weighted/volatile) pools of the
seen set, dropping the stable/boosted ones, whenever the volatile pools
are a proper non-empty subset of the seen set; otherwise it clears the
seen set entirely and still retries. -/
theorem c3_relaxation_and_retry (pools : List BasePool) (g : List GraphEdge)
    (tokenIn tokenOut : Addr) (config : PathGraphTraversalConfig)
    (maxPathsPerTokenPair innerFuel fuel : Nat) (st : SearchState)
    (seen : List Addr) (a : Addr)
    (hshort : st.paths.length < config.approxPathsToReturn) :
    (bestPathsLoop pools g tokenIn tokenOut config maxPathsPerTokenPair
        innerFuel (fuel + 1) st =
      (let stR :=
        searchRound pools g tokenIn tokenOut config maxPathsPerTokenPair
          innerFuel st
       if stR.paths.length < config.approxPathsToReturn ∧
           0 < stR.seenPoolAddresses.length then
         bestPathsLoop pools g tokenIn tokenOut config maxPathsPerTokenPair
           innerFuel fuel
           { stR with
             seenPoolAddresses := relaxSeenPools pools stR.seenPoolAddresses }
       else stR)) ∧
    (a ∈ relaxSeenPools pools seen ↔
      a ∈ seen ∧ isVolatileAddr pools a = true ∧
        (seen.filter (isVolatileAddr pools)).length < seen.length) := by
  constructor
  · simp only [bestPathsLoop, if_pos hshort]
  · unfold relaxSeenPools
    rw [filterVolatilePools_eq_filter]
    by_cases hc :
        0 < (seen.filter (isVolatileAddr pools)).length ∧
          (seen.filter (isVolatileAddr pools)).length < seen.length
    · rw [if_pos hc]
      constructor
      · intro ha
        have hmem := List.mem_filter.mp ha
        exact ⟨hmem.1, hmem.2, hc.2⟩
      · intro ha
        exact List.mem_filter.mpr ⟨ha.1, ha.2.1⟩
    · rw [if_neg hc]
      simp only [List.not_mem_nil, false_iff]
      intro ha
      exact hc ⟨List.length_pos_of_mem (List.mem_filter.mpr ⟨ha.1, ha.2.1⟩),
        ha.2.2⟩

/-- C3 witness: the relaxation-and-retry rule instantiated on the concrete
`c3pools` state, with the seen set `[21, 22]` reached after the first
round and the weighted address 22. -/
theorem c3_relaxation_and_retry_witness :
    (bestPathsLoop c3pools [] 1 3 defaultTraversalConfig 2 0 (0 + 1)
        emptySearchState =
      (let stR :=
        searchRound c3pools [] 1 3 defaultTraversalConfig 2 0 emptySearchState
       if stR.paths.length < defaultTraversalConfig.approxPathsToReturn ∧
           0 < stR.seenPoolAddresses.length then
         bestPathsLoop c3pools [] 1 3 defaultTraversalConfig 2 0 0
           { stR with
             seenPoolAddresses := relaxSeenPools c3pools stR.seenPoolAddresses }
       else stR)) ∧
    ((22 : Addr) ∈ relaxSeenPools c3pools [21, 22] ↔
      (22 : Addr) ∈ [(21 : Addr), 22] ∧ isVolatileAddr c3pools 22 = true ∧
        ([(21 : Addr), 22].filter (isVolatileAddr c3pools)).length <
          [(21 : Addr), 22].length) :=
  c3_relaxation_and_retry c3pools [] 1 3 defaultTraversalConfig 2 0 0
    emptySearchState [21, 22] 22 (by decide)

/-- The claim-side phantom-bearing test: the pool's own address is among
its member-token addresses. -/
def phantomBearing (p : BasePool) : Bool :=
  (p.tokens.map (fun t => t.token.address)).contains p.address

theorem lookupPool_address (pools : List BasePool) (a : Addr)
    (p : BasePool) (h : lookupPool pools a = some p) : p.address = a := by
  have := List.find?_some h
  simpa using this

theorem lookupPool_of_nodup (pools : List BasePool)
    (hnodup : (pools.map BasePool.address).Nodup) (p : BasePool)
    (hp : p ∈ pools) : lookupPool pools p.address = some p := by
  induction pools with
  | nil => cases hp
  | cons q rest ih =>
    simp only [List.map_cons, List.nodup_cons] at hnodup
    rcases List.mem_cons.mp hp with rfl | hmem
    · unfold lookupPool
      simp only [List.reverse_cons]
      rw [List.find?_append]
      have hnone : (rest.reverse).find? (fun x => x.address == p.address) = none := by
        rw [List.find?_eq_none]
        intro x hx
        simp only [beq_iff_eq]
        intro hax
        exact hnodup.1 (by
          rw [← hax]
          exact List.mem_map_of_mem BasePool.address (List.mem_reverse.mp hx))
      rw [hnone]
      simp
    · have := ih hnodup.2 hmem
      unfold lookupPool at this ⊢
      simp only [List.reverse_cons]
      rw [List.find?_append, this]
      simp

theorem mem_dedupFirstAux {α : Type} [DecidableEq α] (l : List α) :
    ∀ (seen : List α) (x : α),
      x ∈ dedupFirstAux seen l ↔ x ∈ l ∧ ¬ x ∈ seen := by
  induction l with
  | nil => intro seen x; simp [dedupFirstAux]
  | cons a rest ih =>
    intro seen x
    by_cases ha : seen.contains a
    · rw [dedupFirstAux, if_pos ha, ih]
      constructor
      · intro hx
        exact ⟨List.mem_cons_of_mem a hx.1, hx.2⟩
      · intro hx
        refine ⟨?_, hx.2⟩
        rcases List.mem_cons.mp hx.1 with rfl | hmem
        · exact absurd (show x ∈ seen by simpa using ha) hx.2
        · exact hmem
    · rw [dedupFirstAux, if_neg ha]
      constructor
      · intro hx
        rcases List.mem_cons.mp hx with rfl | hmem
        · exact ⟨List.mem_cons_self x rest, by
            intro hc
            exact ha (by simpa using hc)⟩
        · have := (ih (a :: seen) x).mp hmem
          exact ⟨List.mem_cons_of_mem a this.1, fun hc =>
            this.2 (List.mem_cons_of_mem a hc)⟩
      · intro hx
        rcases List.mem_cons.mp hx.1 with rfl | hmem
        · exact List.mem_cons_self x _
        · by_cases hxa : x = a
          · subst hxa; exact List.mem_cons_self x _
          · exact List.mem_cons_of_mem a ((ih (a :: seen) x).mpr
              ⟨hmem, by
                intro hc
                rcases List.mem_cons.mp hc with h1 | h2
                · exact hxa h1
                · exact hx.2 h2⟩)

theorem mem_dedupFirst {α : Type} [DecidableEq α] (l : List α) (x : α) :
    x ∈ dedupFirst l ↔ x ∈ l := by
  rw [dedupFirst, mem_dedupFirstAux]
  simp

theorem nodup_dedupFirstAux {α : Type} [DecidableEq α] (l : List α) :
    ∀ seen : List α, (dedupFirstAux seen l).Nodup := by
  induction l with
  | nil => intro seen; simp [dedupFirstAux]
  | cons a rest ih =>
    intro seen
    by_cases ha : seen.contains a
    · rw [dedupFirstAux, if_pos ha]; exact ih seen
    · rw [dedupFirstAux, if_neg ha]
      refine List.nodup_cons.mpr ⟨?_, ih (a :: seen)⟩
      intro hc
      exact ((mem_dedupFirstAux rest (a :: seen) a).mp hc).2
        (List.mem_cons_self a seen)

theorem nodup_dedupFirst {α : Type} [DecidableEq α] (l : List α) :
    (dedupFirst l).Nodup := nodup_dedupFirstAux l []

def edgeName (e : GraphEdge) : Nat × Addr × Addr := (e.label.poolId, e.v, e.w)

theorem sameEdgeName_iff (x e : GraphEdge) :
    sameEdgeName x e = true ↔ edgeName x = edgeName e := by
  simp only [sameEdgeName, edgeName, Bool.and_eq_true, beq_iff_eq,
    Prod.mk.injEq]
  tauto

/-- Graphlib stores edges keyed by name; the embedded edge list keeps the
names pairwise distinct. -/
def NodupNames (g : List GraphEdge) : Prop := (g.map edgeName).Nodup

theorem map_replace_names (g : List GraphEdge) (e : GraphEdge) :
    (g.map (fun x => if sameEdgeName x e then e else x)).map edgeName =
      g.map edgeName := by
  induction g with
  | nil => rfl
  | cons x rest ih =>
    simp only [List.map_cons, ih]
    by_cases h : sameEdgeName x e
    · rw [if_pos h]
      rw [((sameEdgeName_iff x e).mp h)]
    · rw [if_neg h]

theorem setEdge_nodupNames (g : List GraphEdge) (e : GraphEdge)
    (hn : NodupNames g) : NodupNames (setEdge g e) := by
  unfold setEdge
  by_cases h : g.any (fun x => sameEdgeName x e)
  · rw [if_pos h]
    unfold NodupNames
    rw [map_replace_names]
    exact hn
  · rw [if_neg h]
    unfold NodupNames
    rw [List.map_append]
    rw [List.nodup_append]
    refine ⟨hn, by simp, ?_⟩
    intro a ha hb
    simp only [List.map_cons, List.map_nil, List.mem_singleton] at hb
    subst hb
    obtain ⟨x, hx, hxe⟩ := List.mem_map.mp ha
    simp only [List.any_eq_true, not_exists, not_and] at h
    exact absurd ((sameEdgeName_iff x e).mpr hxe)
      (by simpa using h x hx)

theorem replace_filter_le (P : GraphEdge → Bool) (e : GraphEdge) :
    ∀ g : List GraphEdge, NodupNames g →
      ((g.map (fun x => if sameEdgeName x e then e else x)).filter P).length ≤
        (g.filter P).length + (if P e then 1 else 0) := by
  intro g
  induction g with
  | nil => intro _; simp
  | cons x rest ih =>
    intro hn
    have hn2 : NodupNames rest := by
      unfold NodupNames at hn ⊢
      exact (List.nodup_cons.mp hn).2
    by_cases h : sameEdgeName x e
    · rw [List.map_cons, if_pos h]
      have hrest : rest.map (fun y => if sameEdgeName y e then e else y) = rest := by
        rw [show rest = rest.map id from (List.map_id rest).symm]
        rw [List.map_map]
        apply List.map_congr_left
        intro y hy
        simp only [Function.comp_apply, id]
        rw [if_neg]
        intro hc
        have hname : edgeName y = edgeName e := (sameEdgeName_iff y e).mp hc
        have hxename : edgeName x = edgeName e := (sameEdgeName_iff x e).mp h
        have : edgeName x ∈ rest.map edgeName := by
          rw [hxename, ← hname]
          exact List.mem_map_of_mem edgeName hy
        exact (List.nodup_cons.mp hn).1 this
      rw [hrest]
      rw [List.filter_cons, List.filter_cons]
      by_cases hpe : P e
      · simp only [hpe, if_pos]
        by_cases hpx : P x <;> simp [hpx] <;> omega
      · simp only [hpe]
        by_cases hpx : P x <;> simp [hpx, hpe] <;> omega
    · rw [List.map_cons, if_neg h]
      rw [List.filter_cons, List.filter_cons]
      have := ih hn2
      by_cases hpx : P x <;> simp [hpx] <;> omega

theorem setEdge_filter_le (P : GraphEdge → Bool) (g : List GraphEdge)
    (e : GraphEdge) (hn : NodupNames g) :
    ((setEdge g e).filter P).length ≤
      (g.filter P).length + (if P e then 1 else 0) := by
  unfold setEdge
  by_cases h : g.any (fun x => sameEdgeName x e)
  · rw [if_pos h]
    exact replace_filter_le P e g hn
  · rw [if_neg h]
    rw [List.filter_append]
    rw [List.length_append]
    rw [List.filter_cons]
    by_cases hpe : P e <;> simp [hpe]

/-- The edge a `buildGraph` entry would insert, when its pool resolves in
the address map. -/
def itemEdge (pools : List BasePool) (it : PoolPairItem) : Option GraphEdge :=
  (lookupPool pools it.poolPair.pool.address).map
    (fun pool => mkPoolPairEdge pools it.poolPair.tokenIn it.poolPair.tokenOut pool)

def itemWeight (P : GraphEdge → Bool) (pools : List BasePool)
    (it : PoolPairItem) : Nat :=
  match itemEdge pools it with
  | some e => if P e then 1 else 0
  | none => 0

theorem addItemEdge_nodupNames (pools : List BasePool) (g : List GraphEdge)
    (it : PoolPairItem) (hn : NodupNames g) :
    NodupNames (addItemEdge pools g it) := by
  unfold addItemEdge
  cases lookupPool pools it.poolPair.pool.address with
  | none => exact hn
  | some pool => exact setEdge_nodupNames g _ hn

theorem addItemEdge_filter_le (P : GraphEdge → Bool) (pools : List BasePool)
    (g : List GraphEdge) (it : PoolPairItem) (hn : NodupNames g) :
    ((addItemEdge pools g it).filter P).length ≤
      (g.filter P).length + itemWeight P pools it := by
  unfold addItemEdge itemWeight itemEdge
  cases lookupPool pools it.poolPair.pool.address with
  | none => simp
  | some pool =>
    simp only [Option.map_some]
    exact setEdge_filter_le P g _ hn

theorem foldItems_nodupNames (pools : List BasePool) :
    ∀ (items : List PoolPairItem) (g : List GraphEdge), NodupNames g →
      NodupNames (items.foldl (addItemEdge pools) g) := by
  intro items
  induction items with
  | nil => intro g hn; exact hn
  | cons it rest ih =>
    intro g hn
    exact ih (addItemEdge pools g it) (addItemEdge_nodupNames pools g it hn)

theorem foldItems_filter_le (P : GraphEdge → Bool) (pools : List BasePool) :
    ∀ (items : List PoolPairItem) (g : List GraphEdge), NodupNames g →
      ((items.foldl (addItemEdge pools) g).filter P).length ≤
        (g.filter P).length + (items.map (itemWeight P pools)).sum := by
  intro items
  induction items with
  | nil => intro g hn; simp
  | cons it rest ih =>
    intro g hn
    simp only [List.foldl_cons, List.map_cons, List.sum_cons]
    have h1 := ih (addItemEdge pools g it) (addItemEdge_nodupNames pools g it hn)
    have h2 := addItemEdge_filter_le P pools g it hn
    omega

theorem buildGraph_nodupNames (pools : List BasePool) (maxP : Nat) :
    NodupNames (buildGraph pools maxP) := by
  unfold buildGraph
  generalize poolPairKeys pools = keys
  have hbase : NodupNames ([] : List GraphEdge) := by
    unfold NodupNames; simp
  revert hbase
  generalize ([] : List GraphEdge) = g0
  intro hbase
  induction keys generalizing g0 with
  | nil => exact hbase
  | cons k rest ih =>
    simp only [List.foldl_cons]
    exact ih _ (foldItems_nodupNames pools _ g0 hbase)

theorem buildGraph_filter_le (P : GraphEdge → Bool) (pools : List BasePool)
    (maxP : Nat) :
    ((buildGraph pools maxP).filter P).length ≤
      ((poolPairKeys pools).map
        (fun k =>
          ((keepTopOrPhantom pools maxP 0 (sortedItemsForKey pools k)).map
            (itemWeight P pools)).sum)).sum := by
  unfold buildGraph
  have hmain :
      ∀ (keys : List (Addr × Addr)) (g0 : List GraphEdge), NodupNames g0 →
        ((keys.foldl
            (fun graph k =>
              (keepTopOrPhantom pools maxP 0
                  (sortedItemsForKey pools k)).foldl (addItemEdge pools) graph)
            g0).filter P).length ≤
          (g0.filter P).length +
            (keys.map
              (fun k =>
                ((keepTopOrPhantom pools maxP 0
                    (sortedItemsForKey pools k)).map
                  (itemWeight P pools)).sum)).sum := by
    intro keys
    induction keys with
    | nil => intro g0 hn; simp
    | cons k rest ih =>
      intro g0 hn
      simp only [List.foldl_cons, List.map_cons, List.sum_cons]
      have hnext := foldItems_nodupNames pools
        (keepTopOrPhantom pools maxP 0 (sortedItemsForKey pools k)) g0 hn
      have h1 := ih
        ((keepTopOrPhantom pools maxP 0 (sortedItemsForKey pools k)).foldl
          (addItemEdge pools) g0) hnext
      have h2 := foldItems_filter_le P pools
        (keepTopOrPhantom pools maxP 0 (sortedItemsForKey pools k)) g0 hn
      omega
  have := hmain (poolPairKeys pools) [] (by unfold NodupNames; simp)
  simpa using this

theorem mem_keepTopOrPhantom (pools : List BasePool) (m : Nat) :
    ∀ (l : List PoolPairItem) (i : Nat) (it : PoolPairItem),
      it ∈ keepTopOrPhantom pools m i l → it ∈ l := by
  intro l
  induction l with
  | nil => intro i it h; simpa [keepTopOrPhantom] using h
  | cons x rest ih =>
    intro i it h
    unfold keepTopOrPhantom at h
    by_cases hk : i < m ∨ phantomKeep pools x = true
    · rw [if_pos hk] at h
      rcases List.mem_cons.mp h with rfl | hmem
      · exact List.mem_cons_self it rest
      · exact List.mem_cons_of_mem x (ih (i + 1) it hmem)
    · rw [if_neg hk] at h
      exact List.mem_cons_of_mem x (ih (i + 1) it h)

theorem mem_keepTopOrPhantom_of_phantom (pools : List BasePool) (m : Nat) :
    ∀ (l : List PoolPairItem) (i : Nat) (it : PoolPairItem), it ∈ l →
      phantomKeep pools it = true → it ∈ keepTopOrPhantom pools m i l := by
  intro l
  induction l with
  | nil => intro i it h; cases h
  | cons x rest ih =>
    intro i it h hph
    unfold keepTopOrPhantom
    rcases List.mem_cons.mp h with rfl | hmem
    · rw [if_pos (Or.inr hph)]
      exact List.mem_cons_self it _
    · by_cases hk : i < m ∨ phantomKeep pools x = true
      · rw [if_pos hk]
        exact List.mem_cons_of_mem x (ih (i + 1) it hmem hph)
      · rw [if_neg hk]
        exact ih (i + 1) it hmem hph

theorem keep_nonphantom_count (pools : List BasePool) (m : Nat) :
    ∀ (l : List PoolPairItem) (i : Nat),
      ((keepTopOrPhantom pools m i l).filter
        (fun it => !(phantomKeep pools it))).length ≤ m - i := by
  intro l
  induction l with
  | nil => intro i; simp [keepTopOrPhantom]
  | cons it rest ih =>
    intro i
    unfold keepTopOrPhantom
    by_cases hk : i < m ∨ phantomKeep pools it = true
    · rw [if_pos hk]
      rw [List.filter_cons]
      by_cases hph : phantomKeep pools it
      · simp only [hph, Bool.not_true, Bool.false_eq_true, if_false]
        have := ih (i + 1)
        omega
      · have him : i < m := by
          rcases hk with h | h
          · exact h
          · exact absurd h (by simpa using hph)
        simp only [hph, Bool.not_false, if_true, List.length_cons]
        have := ih (i + 1)
        omega
    · rw [if_neg hk]
      have := ih (i + 1)
      omega

theorem mem_insertDescByLiq (e : PoolPairItem) :
    ∀ (l : List PoolPairItem) (x : PoolPairItem),
      x ∈ insertDescByLiq e l ↔ x = e ∨ x ∈ l := by
  intro l
  induction l with
  | nil => intro x; simp [insertDescByLiq]
  | cons y rest ih =>
    intro x
    unfold insertDescByLiq
    by_cases hc : y.normalizedLiquidity ≤ e.normalizedLiquidity
    · rw [if_pos hc]
      simp [List.mem_cons]
    · rw [if_neg hc]
      rw [List.mem_cons, ih x, List.mem_cons]
      tauto

theorem mem_sortItemsByLiqDesc (l : List PoolPairItem) (x : PoolPairItem) :
    x ∈ sortItemsByLiqDesc l ↔ x ∈ l := by
  induction l with
  | nil => simp [sortItemsByLiqDesc]
  | cons y rest ih =>
    unfold sortItemsByLiqDesc
    simp only [List.foldr_cons]
    rw [mem_insertDescByLiq]
    rw [show rest.foldr insertDescByLiq [] = sortItemsByLiqDesc rest from rfl]
    rw [ih, List.mem_cons]

theorem itemKey_of_mem_itemsForKey (pools : List BasePool) (k : Addr × Addr)
    (it : PoolPairItem) (h : it ∈ itemsForKey pools k) : itemKey it = k := by
  unfold itemsForKey at h
  have := List.mem_filter.mp h
  simpa using this.2

theorem map_sum_le_filter_length {α : Type} (w : α → Nat) (q : α → Bool) :
    ∀ l : List α, (∀ x ∈ l, w x ≤ if q x then 1 else 0) →
      (l.map w).sum ≤ (l.filter q).length := by
  intro l
  induction l with
  | nil => intro _; simp
  | cons x rest ih =>
    intro h
    simp only [List.map_cons, List.sum_cons, List.filter_cons]
    have h1 := h x (List.mem_cons_self x rest)
    have h2 := ih (fun y hy => h y (List.mem_cons_of_mem x hy))
    cases hq : q x with
    | false =>
      rw [hq] at h1
      simp only [Bool.false_eq_true, if_false] at h1 ⊢
      omega
    | true =>
      rw [hq] at h1
      simp only [if_true, List.length_cons] at h1 ⊢
      omega

theorem sum_single_key {α : Type} [DecidableEq α] (W : α → Nat) (k0 : α)
    (B : Nat) :
    ∀ keys : List α, keys.Nodup → (∀ k ∈ keys, W k ≤ if k = k0 then B else 0) →
      (keys.map W).sum ≤ B := by
  intro keys
  induction keys with
  | nil => intro _ _; simp
  | cons k rest ih =>
    intro hnd h
    simp only [List.map_cons, List.sum_cons]
    have hk := h k (List.mem_cons_self k rest)
    by_cases hkk : k = k0
    · subst hkk
      rw [if_pos rfl] at hk
      have hrest : (rest.map W).sum = 0 := by
        have : ∀ x ∈ rest.map W, x = 0 := by
          intro x hx
          obtain ⟨y, hy, rfl⟩ := List.mem_map.mp hx
          have := h y (List.mem_cons_of_mem k hy)
          rw [if_neg] at this
          · omega
          · intro hc
            subst hc
            exact (List.nodup_cons.mp hnd).1 hy
        exact List.sum_eq_zero this
      omega
    · rw [if_neg hkk] at hk
      have := ih (List.nodup_cons.mp hnd).2
        (fun y hy => h y (List.mem_cons_of_mem k hy))
      omega

/-- The C4 counting predicate: an edge at the ordered pair `(a, b)` whose
pool is not phantom-bearing. -/
def pairNonPhantom (a b : Addr) (e : GraphEdge) : Bool :=
  e.v == a && e.w == b && !(phantomBearing e.label.poolPair.pool)

theorem phantomKeep_eq_phantomBearing (pools : List BasePool)
    (it : PoolPairItem) (pool : BasePool)
    (hl : lookupPool pools it.poolPair.pool.address = some pool) :
    phantomKeep pools it = phantomBearing pool := by
  unfold phantomKeep phantomBearing
  rw [hl]
  rw [lookupPool_address pools it.poolPair.pool.address pool hl]

theorem itemWeight_pairNonPhantom_le (pools : List BasePool) (a b : Addr)
    (it : PoolPairItem) :
    itemWeight (pairNonPhantom a b) pools it ≤
      if itemKey it = (a, b) ∧ phantomKeep pools it = false then 1 else 0 := by
  cases hl : lookupPool pools it.poolPair.pool.address with
  | none =>
    have hedge : itemEdge pools it = none := by
      unfold itemEdge; rw [hl]; rfl
    unfold itemWeight
    rw [hedge]
    simp
  | some pool =>
    have hedge : itemEdge pools it =
        some (mkPoolPairEdge pools it.poolPair.tokenIn it.poolPair.tokenOut
          pool) := by
      unfold itemEdge; rw [hl]; rfl
    unfold itemWeight
    rw [hedge]
    show (if pairNonPhantom a b
        (mkPoolPairEdge pools it.poolPair.tokenIn it.poolPair.tokenOut pool) =
          true then 1 else 0) ≤ _
    by_cases hP :
        pairNonPhantom a b
          (mkPoolPairEdge pools it.poolPair.tokenIn it.poolPair.tokenOut pool)
    · rw [if_pos hP]
      have hfields := hP
      unfold pairNonPhantom mkPoolPairEdge at hfields
      simp only [Bool.and_eq_true, beq_iff_eq, Bool.not_eq_true'] at hfields
      rw [if_pos ?side]
      case side =>
        constructor
        · unfold itemKey
          rw [hfields.1.1, hfields.1.2]
        · rw [phantomKeep_eq_phantomBearing pools it pool hl]
          exact hfields.2
    · rw [if_neg hP]
      simp

theorem sortedItems_key (pools : List BasePool) (k : Addr × Addr)
    (it : PoolPairItem) (h : it ∈ sortedItemsForKey pools k) :
    itemKey it = k :=
  itemKey_of_mem_itemsForKey pools k it
    ((mem_sortItemsByLiqDesc (itemsForKey pools k) it).mp h)

/-- C4, part A: per ordered token pair, the built graph holds at most
`maxPathsPerTokenPair` edges whose pool is not phantom-bearing. -/
theorem buildGraph_nonphantom_bound (pools : List BasePool) (maxP : Nat)
    (a b : Addr) :
    ((buildGraph pools maxP).filter (pairNonPhantom a b)).length ≤ maxP := by
  refine le_trans (buildGraph_filter_le (pairNonPhantom a b) pools maxP) ?_
  refine sum_single_key _ (a, b) maxP (poolPairKeys pools)
    (nodup_dedupFirst _) ?_
  intro k hk
  by_cases hkab : k = (a, b)
  · subst hkab
    rw [if_pos rfl]
    refine le_trans
      (map_sum_le_filter_length _ (fun it => !(phantomKeep pools it)) _ ?_) ?_
    · intro it hit
      have hkey : itemKey it = (a, b) :=
        sortedItems_key pools (a, b) it
          (mem_keepTopOrPhantom pools maxP _ 0 it hit)
      have hle := itemWeight_pairNonPhantom_le pools a b it
      by_cases hph : phantomKeep pools it = true
      · simp only [hph, Bool.not_true, Bool.false_eq_true, if_false]
        simp only [hph, Bool.true_eq_false, and_false, if_false] at hle
        exact hle
      · have hph2 : phantomKeep pools it = false := by simpa using hph
        simp only [hph2, Bool.not_false, if_true]
        rw [if_pos ⟨hkey, hph2⟩] at hle
        exact hle
    · have := keep_nonphantom_count pools maxP
        (sortedItemsForKey pools (a, b)) 0
      omega
  · rw [if_neg hkab]
    refine le_trans
      (map_sum_le_filter_length _ (fun _ => false) _ ?_) (by simp)
    intro it hit
    have hkey : itemKey it = k :=
      sortedItems_key pools k it (mem_keepTopOrPhantom pools maxP _ 0 it hit)
    have hle := itemWeight_pairNonPhantom_le pools a b it
    rw [if_neg] at hle
    · exact le_trans hle (Nat.zero_le _)
    · intro hc
      exact hkab (hkey ▸ hc.1)

theorem sameEdgeName_refl (e : GraphEdge) : sameEdgeName e e = true := by
  simp [sameEdgeName]

theorem setEdge_mem_name (g : List GraphEdge) (e : GraphEdge) :
    ∃ x ∈ setEdge g e, sameEdgeName x e = true := by
  unfold setEdge
  by_cases h : g.any (fun x => sameEdgeName x e)
  · rw [if_pos h]
    obtain ⟨x, hx, hxe⟩ := List.any_eq_true.mp h
    refine ⟨e, List.mem_map.mpr ⟨x, hx, by rw [if_pos hxe]⟩, sameEdgeName_refl e⟩
  · rw [if_neg h]
    exact ⟨e, by simp, sameEdgeName_refl e⟩

theorem setEdge_preserves_name (g : List GraphEdge) (e2 e : GraphEdge)
    (h : ∃ x ∈ g, sameEdgeName x e = true) :
    ∃ x ∈ setEdge g e2, sameEdgeName x e = true := by
  obtain ⟨x, hx, hxe⟩ := h
  unfold setEdge
  by_cases h2 : g.any (fun y => sameEdgeName y e2)
  · rw [if_pos h2]
    by_cases hxe2 : sameEdgeName x e2
    · refine ⟨e2, List.mem_map.mpr ⟨x, hx, by rw [if_pos hxe2]⟩, ?_⟩
      rw [sameEdgeName_iff] at hxe hxe2 ⊢
      rw [← hxe2]
      exact hxe
    · exact ⟨x, List.mem_map.mpr ⟨x, hx, by rw [if_neg hxe2]⟩, hxe⟩
  · rw [if_neg h2]
    exact ⟨x, List.mem_append_left _ hx, hxe⟩

theorem addItemEdge_preserves_name (pools : List BasePool)
    (g : List GraphEdge) (it : PoolPairItem) (e : GraphEdge)
    (h : ∃ x ∈ g, sameEdgeName x e = true) :
    ∃ x ∈ addItemEdge pools g it, sameEdgeName x e = true := by
  unfold addItemEdge
  cases lookupPool pools it.poolPair.pool.address with
  | none => exact h
  | some pool => exact setEdge_preserves_name g _ e h

theorem foldItems_preserves_name (pools : List BasePool) (e : GraphEdge) :
    ∀ (items : List PoolPairItem) (g : List GraphEdge),
      (∃ x ∈ g, sameEdgeName x e = true) →
      ∃ x ∈ items.foldl (addItemEdge pools) g, sameEdgeName x e = true := by
  intro items
  induction items with
  | nil => intro g h; exact h
  | cons it rest ih =>
    intro g h
    exact ih (addItemEdge pools g it)
      (addItemEdge_preserves_name pools g it e h)

theorem foldItems_introduces_name (pools : List BasePool) :
    ∀ (items : List PoolPairItem) (g : List GraphEdge) (it : PoolPairItem)
      (pool : BasePool), it ∈ items →
      lookupPool pools it.poolPair.pool.address = some pool →
      ∃ x ∈ items.foldl (addItemEdge pools) g,
        sameEdgeName x
          (mkPoolPairEdge pools it.poolPair.tokenIn it.poolPair.tokenOut pool)
          = true := by
  intro items
  induction items with
  | nil => intro g it pool h; cases h
  | cons y rest ih =>
    intro g it pool h hl
    rcases List.mem_cons.mp h with rfl | hmem
    · simp only [List.foldl_cons]
      apply foldItems_preserves_name
      unfold addItemEdge
      rw [hl]
      exact setEdge_mem_name g _
    · simp only [List.foldl_cons]
      exact ih (addItemEdge pools g y) it pool hmem hl

theorem foldKeys_preserves_name (pools : List BasePool) (maxP : Nat)
    (e : GraphEdge) :
    ∀ (keys : List (Addr × Addr)) (g : List GraphEdge),
      (∃ x ∈ g, sameEdgeName x e = true) →
      ∃ x ∈ keys.foldl
          (fun graph kk =>
            (keepTopOrPhantom pools maxP 0
                (sortedItemsForKey pools kk)).foldl (addItemEdge pools) graph)
          g,
        sameEdgeName x e = true := by
  intro keys
  induction keys with
  | nil => intro g h; exact h
  | cons k0 rest ih =>
    intro g h
    simp only [List.foldl_cons]
    exact ih _ (foldItems_preserves_name pools e _ g h)

theorem buildGraph_introduces_name (pools : List BasePool) (maxP : Nat)
    (k : Addr × Addr) (it : PoolPairItem) (pool : BasePool)
    (hk : k ∈ poolPairKeys pools)
    (hit : it ∈ keepTopOrPhantom pools maxP 0 (sortedItemsForKey pools k))
    (hl : lookupPool pools it.poolPair.pool.address = some pool) :
    ∃ x ∈ buildGraph pools maxP,
      sameEdgeName x
        (mkPoolPairEdge pools it.poolPair.tokenIn it.poolPair.tokenOut pool)
        = true := by
  unfold buildGraph
  have hmain :
      ∀ (keys : List (Addr × Addr)) (g0 : List GraphEdge), k ∈ keys →
        ∃ x ∈ keys.foldl
            (fun graph kk =>
              (keepTopOrPhantom pools maxP 0
                  (sortedItemsForKey pools kk)).foldl (addItemEdge pools) graph)
            g0,
          sameEdgeName x
            (mkPoolPairEdge pools it.poolPair.tokenIn it.poolPair.tokenOut
              pool) = true := by
    intro keys
    induction keys with
    | nil => intro g0 h; cases h
    | cons k0 rest ih =>
      intro g0 h
      rcases List.mem_cons.mp h with heq | hmem
      · subst heq
        simp only [List.foldl_cons]
        apply foldKeys_preserves_name
        exact foldItems_introduces_name pools _ g0 it pool hit hl
      · simp only [List.foldl_cons]
        exact ih _ hmem
  exact hmain (poolPairKeys pools) [] hk

/-- The pool-pair entry a pool contributes for an oriented token pair. -/
def itemOf (p : BasePool) (tIn tOut : Token) : PoolPairItem :=
  { poolPair := { pool := p, tokenIn := tIn, tokenOut := tOut }
    normalizedLiquidity := p.getNormalizedLiquidity tIn tOut }

theorem itemOf_fwd_mem (pools : List BasePool) (p : BasePool)
    (hp : p ∈ pools) (pr : Token × Token)
    (hpr : pr ∈ orderedTokenPairs p.tokens) :
    itemOf p pr.1 pr.2 ∈ allPoolPairItems pools := by
  unfold allPoolPairItems
  refine List.mem_flatMap.mpr ⟨p, hp, ?_⟩
  unfold poolPairItems
  exact List.mem_flatMap.mpr ⟨pr, hpr, List.mem_cons_self _ _⟩

theorem itemOf_rev_mem (pools : List BasePool) (p : BasePool)
    (hp : p ∈ pools) (pr : Token × Token)
    (hpr : pr ∈ orderedTokenPairs p.tokens) :
    itemOf p pr.2 pr.1 ∈ allPoolPairItems pools := by
  unfold allPoolPairItems
  refine List.mem_flatMap.mpr ⟨p, hp, ?_⟩
  unfold poolPairItems
  exact List.mem_flatMap.mpr
    ⟨pr, hpr, List.mem_cons_of_mem _ (List.mem_cons_self _ _)⟩

theorem buildGraph_phantom_edge (pools : List BasePool) (maxP : Nat)
    (p : BasePool) (tIn tOut : Token)
    (hnodup : (pools.map BasePool.address).Nodup)
    (hp : p ∈ pools) (hph : phantomBearing p = true)
    (hmem : itemOf p tIn tOut ∈ allPoolPairItems pools) :
    (buildGraph pools maxP).any (fun e =>
      e.label.poolId == p.id && e.v == tIn.address && e.w == tOut.address)
      = true := by
  have hl : lookupPool pools p.address = some p :=
    lookupPool_of_nodup pools hnodup p hp
  have hlI :
      lookupPool pools (itemOf p tIn tOut).poolPair.pool.address = some p := hl
  have hphk : phantomKeep pools (itemOf p tIn tOut) = true := by
    unfold phantomKeep
    rw [hlI]
    exact hph
  have hkeys : (tIn.address, tOut.address) ∈ poolPairKeys pools := by
    unfold poolPairKeys
    exact (mem_dedupFirst _ _).mpr
      (List.mem_map.mpr ⟨itemOf p tIn tOut, hmem, rfl⟩)
  have hfk :
      itemOf p tIn tOut ∈ itemsForKey pools (tIn.address, tOut.address) := by
    unfold itemsForKey
    exact List.mem_filter.mpr ⟨hmem, by simp [itemKey, itemOf]⟩
  have hsort :=
    (mem_sortItemsByLiqDesc (itemsForKey pools (tIn.address, tOut.address))
      (itemOf p tIn tOut)).mpr hfk
  have hkeep := mem_keepTopOrPhantom_of_phantom pools maxP _ 0 _ hsort hphk
  obtain ⟨x, hx, hxname⟩ :=
    buildGraph_introduces_name pools maxP (tIn.address, tOut.address)
      (itemOf p tIn tOut) p hkeys hkeep hlI
  rw [List.any_eq_true]
  refine ⟨x, hx, ?_⟩
  have hn := (sameEdgeName_iff _ _).mp hxname
  unfold edgeName mkPoolPairEdge at hn
  simp only [Prod.mk.injEq] at hn
  simp [hn.1, hn.2.1, hn.2.2, itemOf]

/-- C4: for every pool collection with pairwise-distinct pool addresses and
every `maxPathsPerTokenPair >= 1`, the built graph has, per ordered token
pair, at most `maxPathsPerTokenPair` edges whose pool is not
phantom-bearing, and it contains an edge (in both orientations) for every
member-token pair of every phantom-bearing pool, regardless of liquidity
rank. -/
theorem c4_graph_pruning (pools : List BasePool) (maxP : Nat) (a b : Addr)
    (p : BasePool) (pr : Token × Token)
    (hmax : 1 ≤ maxP)
    (hnodup : (pools.map BasePool.address).Nodup)
    (hp : p ∈ pools) (hph : phantomBearing p = true)
    (hpr : pr ∈ orderedTokenPairs p.tokens) :
    ((buildGraph pools maxP).filter (pairNonPhantom a b)).length ≤ maxP ∧
    (buildGraph pools maxP).any (fun e =>
      e.label.poolId == p.id && e.v == pr.1.address && e.w == pr.2.address)
      = true ∧
    (buildGraph pools maxP).any (fun e =>
      e.label.poolId == p.id && e.v == pr.2.address && e.w == pr.1.address)
      = true :=
  ⟨buildGraph_nonphantom_bound pools maxP a b,
    buildGraph_phantom_edge pools maxP p pr.1 pr.2 hnodup hp hph
      (itemOf_fwd_mem pools p hp pr hpr),
    buildGraph_phantom_edge pools maxP p pr.2 pr.1 hnodup hp hph
      (itemOf_rev_mem pools p hp pr hpr)⟩

/-- C4 witness: the pruning invariant instantiated on the concrete
`c5pools` snapshot and its phantom-bearing pool. -/
theorem c4_graph_pruning_witness :
    ((buildGraph c5pools 2).filter (pairNonPhantom 1 2)).length ≤ 2 ∧
    (buildGraph c5pools 2).any (fun e =>
      e.label.poolId == c5poolCZ.id && e.v == (mkToken 3, mkToken 4).1.address
        && e.w == (mkToken 3, mkToken 4).2.address) = true ∧
    (buildGraph c5pools 2).any (fun e =>
      e.label.poolId == c5poolCZ.id && e.v == (mkToken 3, mkToken 4).2.address
        && e.w == (mkToken 3, mkToken 4).1.address) = true :=
  c4_graph_pruning c5pools 2 1 2 c5poolCZ (mkToken 3, mkToken 4)
    (by decide)
    (by decide)
    (by
      unfold c5pools
      exact List.mem_cons_of_mem _
        (List.mem_cons_of_mem _ (List.mem_cons_self _ _)))
    (by decide)
    (by decide)

/-- Well-formedness of a stored graph edge: the label's pool is the one the
address map resolves for its pool address, the label's pool id matches,
and the label's ordered token pair carries the edge's endpoints. Every
edge `buildGraph` inserts satisfies this. -/
def EdgeWF (pools : List BasePool) (ge : GraphEdge) : Prop :=
  lookupPool pools ge.label.poolAddress = some ge.label.poolPair.pool ∧
  ge.label.poolId = ge.label.poolPair.pool.id ∧
  ge.label.poolPair.tokenIn.address = ge.v ∧
  ge.label.poolPair.tokenOut.address = ge.w

def GraphWF (pools : List BasePool) (g : List GraphEdge) : Prop :=
  ∀ ge ∈ g, EdgeWF pools ge

theorem mem_setEdge (g : List GraphEdge) (e x : GraphEdge)
    (hx : x ∈ setEdge g e) : x ∈ g ∨ x = e := by
  unfold setEdge at hx
  by_cases h : g.any (fun y => sameEdgeName y e)
  · rw [if_pos h] at hx
    obtain ⟨y, hy, hyx⟩ := List.mem_map.mp hx
    by_cases hye : sameEdgeName y e
    · rw [if_pos hye] at hyx
      exact Or.inr hyx.symm
    · rw [if_neg hye] at hyx
      exact Or.inl (hyx ▸ hy)
  · rw [if_neg h] at hx
    rcases List.mem_append.mp hx with h1 | h2
    · exact Or.inl h1
    · exact Or.inr (List.mem_singleton.mp h2)

theorem mkPoolPairEdge_wf (pools : List BasePool) (tIn tOut : Token)
    (pool : BasePool) (a : Addr) (hl : lookupPool pools a = some pool) :
    EdgeWF pools (mkPoolPairEdge pools tIn tOut pool) := by
  have haddr : pool.address = a := lookupPool_address pools a pool hl
  refine ⟨?_, rfl, rfl, rfl⟩
  show lookupPool pools pool.address = some pool
  rw [haddr]
  exact hl

theorem addItemEdge_wf (pools : List BasePool) (g : List GraphEdge)
    (it : PoolPairItem) (hg : GraphWF pools g) :
    GraphWF pools (addItemEdge pools g it) := by
  unfold addItemEdge
  cases hl : lookupPool pools it.poolPair.pool.address with
  | none => exact hg
  | some pool =>
    intro ge hge
    rcases mem_setEdge g _ ge hge with h | h
    · exact hg ge h
    · rw [h]
      exact mkPoolPairEdge_wf pools _ _ pool _ hl

theorem foldItems_wf (pools : List BasePool) :
    ∀ (items : List PoolPairItem) (g : List GraphEdge), GraphWF pools g →
      GraphWF pools (items.foldl (addItemEdge pools) g) := by
  intro items
  induction items with
  | nil => intro g hg; exact hg
  | cons it rest ih =>
    intro g hg
    exact ih _ (addItemEdge_wf pools g it hg)

theorem buildGraph_wf (pools : List BasePool) (maxP : Nat) :
    GraphWF pools (buildGraph pools maxP) := by
  unfold buildGraph
  have hmain :
      ∀ (keys : List (Addr × Addr)) (g0 : List GraphEdge), GraphWF pools g0 →
        GraphWF pools (keys.foldl
          (fun graph k =>
            (keepTopOrPhantom pools maxP 0
                (sortedItemsForKey pools k)).foldl (addItemEdge pools) graph)
          g0) := by
    intro keys
    induction keys with
    | nil => intro g0 hg; exact hg
    | cons k rest ih =>
      intro g0 hg
      exact ih _ (foldItems_wf pools _ g0 hg)
  exact hmain (poolPairKeys pools) [] (fun ge hge => absurd hge (by simp))

theorem length_dedupFirstAux_le {α : Type} [DecidableEq α] (l : List α) :
    ∀ seen : List α, (dedupFirstAux seen l).length ≤ l.length := by
  induction l with
  | nil => intro seen; simp [dedupFirstAux]
  | cons a rest ih =>
    intro seen
    unfold dedupFirstAux
    by_cases h : seen.contains a
    · rw [if_pos h]
      exact le_trans (ih seen) (Nat.le_succ _)
    · rw [if_neg h]
      simpa using ih (a :: seen)

theorem nodup_of_dedupFirstAux_length {α : Type} [DecidableEq α]
    (l : List α) :
    ∀ seen : List α, (dedupFirstAux seen l).length = l.length →
      l.Nodup ∧ ∀ x ∈ l, ¬ x ∈ seen := by
  induction l with
  | nil => intro seen _; exact ⟨List.nodup_nil, by simp⟩
  | cons a rest ih =>
    intro seen h
    unfold dedupFirstAux at h
    by_cases hc : seen.contains a
    · rw [if_pos hc] at h
      have := length_dedupFirstAux_le rest seen
      simp only [List.length_cons] at h
      omega
    · rw [if_neg hc] at h
      simp only [List.length_cons, Nat.succ_inj] at h
      obtain ⟨hnd, hout⟩ := ih (a :: seen) h
      refine ⟨List.nodup_cons.mpr ⟨?_, hnd⟩, ?_⟩
      · intro hmem
        exact hout a hmem (List.mem_cons_self a seen)
      · intro x hx
        rcases List.mem_cons.mp hx with rfl | hmem
        · intro hxs
          exact hc (by simpa using hxs)
        · intro hxs
          exact hout x hmem (List.mem_cons_of_mem a hxs)

theorem nodup_of_dedupFirst_length {α : Type} [DecidableEq α] (l : List α)
    (h : (dedupFirst l).length = l.length) : l.Nodup :=
  (nodup_of_dedupFirstAux_length l [] h).1

theorem filterMap_eq_map_of_some {α β : Type} (f : α → Option β)
    (h : α → β) :
    ∀ l : List α, (∀ x ∈ l, f x = some (h x)) →
      l.filterMap f = l.map h := by
  intro l
  induction l with
  | nil => intro _; rfl
  | cons x rest ih =>
    intro hall
    rw [List.filterMap_cons, hall x (List.mem_cons_self x rest)]
    rw [List.map_cons, ih (fun y hy => hall y (List.mem_cons_of_mem x hy))]

theorem mem_graphOutEdges (g : List GraphEdge) (v w : Addr) (ge : GraphEdge)
    (h : ge ∈ graphOutEdges g v w) : ge ∈ g ∧ ge.v = v ∧ ge.w = w := by
  unfold graphOutEdges at h
  have := List.mem_filter.mp h
  refine ⟨this.1, ?_, ?_⟩ <;>
    [skip; skip] <;>
    · have h2 := this.2
      simp only [Bool.and_eq_true, beq_iff_eq] at h2
      first
        | exact h2.1
        | exact h2.2

theorem hopEdge_mem (g : List GraphEdge) (idx : Nat) (a b : Addr)
    (ge : GraphEdge) (h : hopEdge g idx a b = some ge) :
    ge ∈ g ∧ ge.v = a ∧ ge.w = b := by
  unfold hopEdge at h
  cases h1 : (graphOutEdges g a b).get? idx with
  | some e1 =>
    rw [h1] at h
    simp only [Option.orElse] at h
    cases h
    exact mem_graphOutEdges g a b _ (List.get?_mem h1)
  | none =>
    rw [h1] at h
    simp only [Option.orElse] at h
    exact mem_graphOutEdges g a b _ (List.get?_mem h)

theorem firstSome_some {α : Type} :
    ∀ (l : List (Option α)) (a : α), firstSome l = some a → some a ∈ l := by
  intro l
  induction l with
  | nil => intro a h; cases h
  | cons o rest ih =>
    intro a h
    cases o with
    | some b =>
      rw [firstSome] at h
      cases h
      exact List.mem_cons_self _ _
    | none =>
      rw [firstSome] at h
      exact List.mem_cons_of_mem _ (ih a h)

/-- Per-segment well-formedness: the token pair of the label carries the
hop's endpoints, the address map resolves the segment's pool address to the
label's pool, and the ids match. -/
def SegWF (pools : List BasePool) (s : PathGraphEdge) : Prop :=
  s.poolPair.tokenIn.address = s.tokenIn ∧
  s.poolPair.tokenOut.address = s.tokenOut ∧
  lookupPool pools s.poolAddress = some s.poolPair.pool ∧
  s.poolId = s.poolPair.pool.id

theorem buildPathGo_spec (pools : List BasePool) (g : List GraphEdge)
    (idx : Nat) (hwf : GraphWF pools g) :
    ∀ (rest : List Addr) (a : Addr) (path : List PathGraphEdge) (u : Bool),
      buildPathGo g idx a rest = some (path, u) →
      path.map (fun s => s.tokenOut) = rest ∧
      (∀ s, path.head? = some s → s.tokenIn = a) ∧
      ∀ s ∈ path, SegWF pools s := by
  intro rest
  induction rest with
  | nil =>
    intro a path u h
    rw [buildPathGo] at h
    cases h
    exact ⟨rfl, by simp, by simp⟩
  | cons b rest2 ih =>
    intro a path u h
    rw [buildPathGo] at h
    cases hge : hopEdge g idx a b with
    | none => rw [hge] at h; cases h
    | some ge =>
      rw [hge] at h
      cases hgo : buildPathGo g idx b rest2 with
      | none => rw [hgo] at h; cases h
      | some pr =>
        obtain ⟨tail, u2⟩ := pr
        rw [hgo] at h
        cases h
        obtain ⟨hmem, hv, hw⟩ := hopEdge_mem g idx a b ge hge
        have hewf : EdgeWF pools ge := hwf ge hmem
        obtain ⟨htail1, htail2, htail3⟩ := ih b tail u2 hgo
        refine ⟨?_, ?_, ?_⟩
        · simp only [List.map_cons, htail1, hopSegment]
        · intro s hs
          simp only [List.head?_cons, Option.some.injEq] at hs
          rw [← hs]
          rfl
        · intro s hs
          rcases List.mem_cons.mp hs with rfl | hmem2
          · refine ⟨?_, ?_, ?_, ?_⟩
            · show ge.label.poolPair.tokenIn.address = a
              rw [hewf.2.2.1, hv]
            · show ge.label.poolPair.tokenOut.address = b
              rw [hewf.2.2.2, hw]
            · exact hewf.1
            · exact hewf.2.1
          · exact htail3 s hmem2

theorem buildPath_some (g : List GraphEdge) (tp : List Addr) (idx : Nat)
    (path : List PathGraphEdge) (h : buildPath g tp idx = some path) :
    ∃ a rest u, tp = a :: rest ∧ buildPathGo g idx a rest = some (path, u) := by
  cases tp with
  | nil => cases h
  | cons a rest =>
    have h2 : (match buildPathGo g idx a rest with
        | none => none
        | some (p2, isUnique) => if isUnique = true then some p2 else none) =
        some path := h
    cases hgo : buildPathGo g idx a rest with
    | none => rw [hgo] at h2; cases h2
    | some pr =>
      obtain ⟨p2, u⟩ := pr
      rw [hgo] at h2
      by_cases hu : u = true
      · rw [hu] at h2 hgo
        simp only [if_true] at h2
        cases h2
        exact ⟨a, rest, true, rfl, hgo⟩
      · have hfalse : u = false := by simpa using hu
        rw [hfalse] at h2
        simp only [Bool.false_eq_true, if_false] at h2
        cases h2

theorem nodup_append_singleton {α : Type} (l : List α) (a : α)
    (h : l.Nodup) (ha : ¬ a ∈ l) : (l ++ [a]).Nodup := by
  rw [List.nodup_append]
  exact ⟨h, List.nodup_singleton a,
    fun x hx hxa => ha ((List.mem_singleton.mp hxa) ▸ hx)⟩

theorem if_false_eq_true {c : Prop} [Decidable c] {t : Bool}
    (h : (if c then false else t) = true) : t = true := by
  by_cases hc : c
  · rw [if_pos hc] at h
    cases h
  · rwa [if_neg hc] at h

theorem if_false_eq_true_not {c : Prop} [Decidable c] {t : Bool}
    (h : (if c then false else t) = true) : ¬ c := by
  intro hc
  rw [if_pos hc] at h
  cases h

theorem isValidPath_nodup_pools (pools : List BasePool)
    (path : List PathGraphEdge) (seen : List Addr)
    (sel : List (List (Nat × Addr × Addr)))
    (config : PathGraphTraversalConfig)
    (h : isValidPath pools path seen sel config = true) :
    (path.map (fun s => s.poolId)).Nodup := by
  unfold isValidPath at h
  have h1 := if_false_eq_true h
  have h2 := if_false_eq_true h1
  have h3 := not_not.mp (if_false_eq_true_not h2)
  exact nodup_of_dedupFirst_length _
    (by rw [List.length_map]; exact h3)

theorem directClosedPath_some (pools : List BasePool) (g : List GraphEdge)
    (tokenOut : Addr) (idx : Nat) (config : PathGraphTraversalConfig)
    (seen : List Addr) (sel : List (List (Nat × Addr × Addr)))
    (tokenPath succs : List Addr) (path : List PathGraphEdge)
    (h : directClosedPath pools g tokenOut idx config seen sel tokenPath
      succs = some path) :
    succs.contains tokenOut = true ∧
    buildPath g (tokenPath ++ [tokenOut]) idx = some path ∧
    isValidPath pools path seen sel config = true := by
  unfold directClosedPath at h
  by_cases hc : succs.contains tokenOut = true
  · rw [if_pos hc] at h
    cases hb : buildPath g (tokenPath ++ [tokenOut]) idx with
    | none => rw [hb] at h; cases h
    | some p2 =>
      rw [hb] at h
      have h2 : (if isValidPath pools p2 seen sel config = true then some p2
          else none) = some path := h
      by_cases hv : isValidPath pools p2 seen sel config = true
      · rw [if_pos hv] at h2
        cases h2
        exact ⟨hc, rfl, hv⟩
      · rw [if_neg hv] at h2
        cases h2
  · rw [if_neg hc] at h
    cases h

theorem traverse_sound (pools : List BasePool) (g : List GraphEdge)
    (tokenIn tokenOut : Addr) (idx : Nat) (config : PathGraphTraversalConfig)
    (seen : List Addr) (sel : List (List (Nat × Addr × Addr))) :
    ∀ (fuel : Nat) (tokenPath : List Addr) (token : Addr)
      (path : List PathGraphEdge), tokenPath.Nodup →
      traverseGraphAndFindUniquePath pools g tokenIn tokenOut idx config seen
        sel fuel tokenPath token = some path →
      ∃ tp : List Addr, tp.Nodup ∧ buildPath g tp idx = some path ∧
        isValidPath pools path seen sel config = true := by
  intro fuel
  induction fuel with
  | zero =>
    intro tokenPath token path hnd h
    simp [traverseGraphAndFindUniquePath] at h
  | succ fuel ih =>
    intro tokenPath token path hnd h
    rw [traverseGraphAndFindUniquePath] at h
    by_cases hvalid :
        isValidTokenPath pools tokenPath config tokenIn tokenOut = true
    · rw [if_pos hvalid] at h
      cases hdir : directClosedPath pools g tokenOut idx config seen sel
          tokenPath (unvisitedSuccessors g tokenPath token) with
      | some p2 =>
        rw [hdir] at h
        have hpath := Option.some.inj h
        subst hpath
        obtain ⟨hc, hb, hv⟩ := directClosedPath_some pools g tokenOut idx
          config seen sel tokenPath _ p2 hdir
        refine ⟨tokenPath ++ [tokenOut], ?_, hb, hv⟩
        have hmem : tokenOut ∈ unvisitedSuccessors g tokenPath token := by
          simpa using hc
        have hnot : ¬ tokenOut ∈ tokenPath := by
          unfold unvisitedSuccessors at hmem
          have := (List.mem_filter.mp hmem).2
          simpa using this
        exact nodup_append_singleton tokenPath tokenOut hnd hnot
      | none =>
        rw [hdir] at h
        have hmem := firstSome_some _ path h
        obtain ⟨s, hs, hcall⟩ := List.mem_map.mp hmem
        have hsnot : ¬ s ∈ tokenPath := by
          unfold sortSuccessorsByLookahead at hs
          have := (List.mem_filter.mp hs).2
          simpa using this
        exact ih (tokenPath ++ [s]) s path
          (nodup_append_singleton tokenPath s hnd hsnot) hcall
    · rw [if_neg hvalid] at h
      cases h

/-- An accepted path of the search: materialized by `buildPath` over a
duplicate-free token path, with pairwise-distinct pool ids. -/
def GoodPath (pools : List BasePool) (g : List GraphEdge)
    (path : List PathGraphEdge) : Prop :=
  ∃ (tp : List Addr) (idx : Nat), tp.Nodup ∧ buildPath g tp idx = some path ∧
    (path.map (fun s => s.poolId)).Nodup

theorem innerSearchLoop_good (pools : List BasePool) (g : List GraphEdge)
    (tokenIn tokenOut : Addr) (idx : Nat)
    (config : PathGraphTraversalConfig) :
    ∀ (fuel : Nat) (st : SearchState),
      (∀ p ∈ st.paths, GoodPath pools g p) →
      ∀ p ∈ (innerSearchLoop pools g tokenIn tokenOut idx config fuel
        st).paths, GoodPath pools g p := by
  intro fuel
  induction fuel with
  | zero => intro st h; exact h
  | succ fuel ih =>
    intro st h
    rw [innerSearchLoop]
    cases htr : traverseGraphAndFindUniquePath pools g tokenIn tokenOut idx
        config st.seenPoolAddresses st.selectedPathIds (config.maxDepth + 1)
        [tokenIn] tokenIn with
    | none => exact h
    | some path =>
      apply ih
      intro p hp
      simp only [List.mem_append, List.mem_singleton] at hp
      rcases hp with hp | hp
      · exact h p hp
      · subst hp
        obtain ⟨tp, hnd, hb, hv⟩ := traverse_sound pools g tokenIn tokenOut
          idx config st.seenPoolAddresses st.selectedPathIds
          (config.maxDepth + 1) [tokenIn] tokenIn p
          (List.nodup_singleton tokenIn) htr
        exact ⟨tp, idx, hnd, hb, isValidPath_nodup_pools _ _ _ _ _ hv⟩

theorem foldl_inv {α β : Type} (f : α → β → α) (inv : α → Prop)
    (hstep : ∀ a b, inv a → inv (f a b)) :
    ∀ (l : List β) (a : α), inv a → inv (l.foldl f a) := by
  intro l
  induction l with
  | nil => intro a h; exact h
  | cons b rest ih => intro a h; exact ih (f a b) (hstep a b h)

theorem searchRound_good (pools : List BasePool) (g : List GraphEdge)
    (tokenIn tokenOut : Addr) (config : PathGraphTraversalConfig)
    (maxPathsPerTokenPair innerFuel : Nat) (st : SearchState)
    (h : ∀ p ∈ st.paths, GoodPath pools g p) :
    ∀ p ∈ (searchRound pools g tokenIn tokenOut config maxPathsPerTokenPair
      innerFuel st).paths, GoodPath pools g p := by
  unfold searchRound
  exact foldl_inv _ (fun st => ∀ p ∈ st.paths, GoodPath pools g p)
    (fun stx idx hx =>
      innerSearchLoop_good pools g tokenIn tokenOut idx config innerFuel stx
        hx)
    (List.range maxPathsPerTokenPair) st h

theorem bestPathsLoop_good (pools : List BasePool) (g : List GraphEdge)
    (tokenIn tokenOut : Addr) (config : PathGraphTraversalConfig)
    (maxPathsPerTokenPair innerFuel : Nat) :
    ∀ (fuel : Nat) (st : SearchState),
      (∀ p ∈ st.paths, GoodPath pools g p) →
      ∀ p ∈ (bestPathsLoop pools g tokenIn tokenOut config
        maxPathsPerTokenPair innerFuel fuel st).paths, GoodPath pools g p := by
  intro fuel
  induction fuel with
  | zero => intro st h; exact h
  | succ fuel ih =>
    intro st h
    rw [bestPathsLoop]
    by_cases h1 : st.paths.length < config.approxPathsToReturn
    · rw [if_pos h1]
      have hround := searchRound_good pools g tokenIn tokenOut config
        maxPathsPerTokenPair innerFuel st h
      by_cases h2 :
          (searchRound pools g tokenIn tokenOut config maxPathsPerTokenPair
            innerFuel st).paths.length < config.approxPathsToReturn ∧
          0 < (searchRound pools g tokenIn tokenOut config
            maxPathsPerTokenPair innerFuel st).seenPoolAddresses.length
      · rw [if_pos h2]
        exact ih _ hround
      · rw [if_neg h2]
        exact hround
    · rw [if_neg h1]
      exact h

/-- C6: every path returned by `findPaths` is structurally well-formed —
no token repeats, no pool repeats, and the pool sequence is one shorter
than the token sequence. -/
theorem c6_structural_wellformedness (pools : List BasePool) (maxP : Nat)
    (tokenIn tokenOut : Token) (config : PathGraphTraversalConfig)
    (fuel : Nat) (fp : FoundPath)
    (hmem : fp ∈ findPaths pools maxP tokenIn tokenOut config fuel) :
    fp.tokens.Nodup ∧ fp.pools.Nodup ∧
      fp.pools.length = fp.tokens.length - 1 := by
  unfold findPaths traverseGraphAndFindBestPaths at hmem
  by_cases hnode : (hasNode (buildGraph pools maxP) tokenIn.address &&
      hasNode (buildGraph pools maxP) tokenOut.address) = true
  case neg =>
    rw [if_neg hnode] at hmem
    simp at hmem
  case pos =>
    rw [if_pos hnode] at hmem
    obtain ⟨path, hpmem, rfl⟩ := List.mem_map.mp hmem
    have hgood : GoodPath pools (buildGraph pools maxP) path :=
      bestPathsLoop_good pools (buildGraph pools maxP) tokenIn.address
        tokenOut.address config maxP fuel fuel
        { paths := [], selectedPathIds := [], seenPoolAddresses := [] }
        (fun p hp => absurd hp (List.not_mem_nil p)) path hpmem
    have hwf := buildGraph_wf pools maxP
    obtain ⟨tp, idx, hndtp, hb, hpid⟩ := hgood
    obtain ⟨a, rest, u, rfl, hgo⟩ := buildPath_some _ tp idx path hb
    obtain ⟨hmap, hhead, hseg⟩ :=
      buildPathGo_spec pools _ idx hwf rest a path u hgo
    have hnd : (a :: rest).Nodup := hndtp
    cases path with
    | nil => simp [pathEdgesToFoundPath]
    | cons e0 tl =>
      have hs0 := hseg e0 (List.mem_cons_self e0 tl)
      have hhead0 : e0.tokenIn = a := hhead e0 rfl
      have htokens :
          (pathEdgesToFoundPath pools (e0 :: tl)).tokens =
            e0.poolPair.tokenIn ::
              (e0 :: tl).map (fun s => s.poolPair.tokenOut) := rfl
      have hpoolsEq :
          (pathEdgesToFoundPath pools (e0 :: tl)).pools =
            (e0 :: tl).map (fun s => s.poolPair.pool) := by
        show (e0 :: tl).filterMap (fun s => lookupPool pools s.poolAddress) = _
        exact filterMap_eq_map_of_some _ _ _ (fun s hs => (hseg s hs).2.2.1)
      have haddr :
          ((pathEdgesToFoundPath pools (e0 :: tl)).tokens).map Token.address =
            a :: rest := by
        rw [htokens, List.map_cons, List.map_map]
        congr 1
        · rw [hs0.1, hhead0]
        · rw [← hmap]
          apply List.map_congr_left
          intro s hs
          exact (hseg s hs).2.1
      refine ⟨?_, ?_, ?_⟩
      · apply List.Nodup.of_map Token.address
        rw [haddr]
        exact hnd
      · apply List.Nodup.of_map BasePool.id
        have hids :
            ((pathEdgesToFoundPath pools (e0 :: tl)).pools).map BasePool.id =
              (e0 :: tl).map (fun s => s.poolId) := by
          rw [hpoolsEq, List.map_map]
          apply List.map_congr_left
          intro s hs
          exact ((hseg s hs).2.2.2).symm
        rw [hids]
        exact hpid
      · rw [hpoolsEq, List.length_map, htokens]
        simp

def c6pool : BasePool := mkRouterPool 301 31 PoolType.Weighted [1, 2] 100

/-- The single path `findPaths` returns on the one-pool snapshot. -/
def c6found : FoundPath :=
  (findPaths [c6pool] 2 (mkToken 1) (mkToken 2) defaultTraversalConfig
    5).headD { tokens := [], pools := [] }

/-- C6 witness: the structural invariant instantiated on a concrete
one-pool search result. -/
theorem c6_structural_wellformedness_witness :
    c6found.tokens.Nodup ∧ c6found.pools.Nodup ∧
      c6found.pools.length = c6found.tokens.length - 1 :=
  c6_structural_wellformedness [c6pool] 2 (mkToken 1) (mkToken 2)
    defaultTraversalConfig 5 c6found
    (by
      rw [show findPaths [c6pool] 2 (mkToken 1) (mkToken 2)
        defaultTraversalConfig 5 = [c6found] from rfl]
      exact List.mem_singleton_self c6found)
